import Mathlib

/-!
Verification of the string-matching trace engine of the
`Advanced_String_Maching` repository (`src/String_Matching/src/StringMatch.jsx`).

Texts and patterns are modelled as lists of character codes (`List Nat`).
JavaScript values that may be `undefined` or `NaN` are modelled as
`Option Nat`, with `none` standing for `undefined` (array/string access out
of bounds) or `NaN` (arithmetic on `undefined`).  JavaScript `===` behaves
differently on the two: `undefined === undefined` is `true` while
`NaN === NaN` is `false`, so two comparison helpers are provided.
-/

namespace StringMatch

/-- JavaScript `===` on possibly-`undefined` character values:
`undefined === undefined` is `true`, `undefined === c` is `false`. -/
def jsEqU : Option Nat → Option Nat → Bool
  | some a, some b => a == b
  | none, none => true
  | _, _ => false

/-- JavaScript `===` on numeric values where `none` models `NaN`:
`NaN` is equal to nothing, not even itself. -/
def jsEqNaN : Option Nat → Option Nat → Bool
  | some a, some b => a == b
  | _, _ => false

/-- One recorded character comparison (the objects pushed onto
`currentComparisons`): `{ textIndex, patternIndex, match }`.  The JS field
`match` is a Lean keyword and is rendered `matched`. -/
structure NaiveCmp where
  textIndex : Nat
  patternIndex : Nat
  matched : Bool
  deriving DecidableEq

/-- Outcome tag of a naive step, carrying the positions interpolated into the
`description` strings of the source. -/
inductive NaiveDesc
  | matchFound (pos : Nat)
  | mismatch (pos : Nat)
  deriving DecidableEq

/-- One step object pushed by `naiveStringMatching`. -/
structure NaiveStep where
  textIndex : Nat
  patternIndex : Nat
  comparisons : List NaiveCmp
  totalComparisons : Nat
  description : NaiveDesc
  deriving DecidableEq

/-- One entry of the `history` array (`{ step, comparisons, totalComparisons }`). -/
structure HistoryEntry where
  step : Nat
  comparisons : Nat
  totalComparisons : Nat
  deriving DecidableEq

/-- The inner loop of `naiveStringMatching` (source lines 81-94): starting at
pattern index `j` with the not-yet-scanned part `ps` of the pattern, push one
comparison record per iteration and break on the first mismatch.  Returns the
pushed records together with the final value of `j`. -/
def scanCmps (t : List Nat) (i : Nat) : List Nat → Nat → List NaiveCmp × Nat
  | [], j => ([], j)
  | c :: ps, j =>
    let m := jsEqU t[i + j]? (some c)
    if m then
      let r := scanCmps t i ps (j + 1)
      (⟨i + j, j, m⟩ :: r.1, r.2)
    else ([⟨i + j, j, m⟩], j)

/-- Everything `naiveStringMatching` accumulates: the returned `steps` array
and the `foundMatches`, `totalComparisons` and `history` written to component
state. -/
structure NaiveResult where
  steps : List NaiveStep
  foundMatches : List Nat
  totalComparisons : Nat
  history : List HistoryEntry
  deriving DecidableEq

/-- One iteration of the naive outer loop: the window at offset `i`
(source lines 76-118). -/
def naiveWindow (t p : List Nat) (i : Nat) (st : NaiveResult) : NaiveResult :=
  let r := scanCmps t i p 0
  let total := st.totalComparisons + r.1.length
  { steps := st.steps ++
      [⟨i, 0, r.1, total,
        if r.2 = p.length then .matchFound i else .mismatch (i + r.2)⟩]
    foundMatches := if r.2 = p.length then st.foundMatches ++ [i] else st.foundMatches
    totalComparisons := total
    history := st.history ++ [⟨i, r.1.length, total⟩] }

/-- The naive outer loop, `cnt` windows starting at offset `i`. -/
def naiveLoop (t p : List Nat) : Nat → Nat → NaiveResult → NaiveResult
  | _, 0, st => st
  | i, cnt + 1, st => naiveLoop t p (i + 1) cnt (naiveWindow t p i st)

/-- `naiveStringMatching` (source lines 70-124).  The JS loop
`for (let i = 0; i <= text.length - pattern.length; i++)` runs
`text.length - pattern.length + 1` times, and not at all when the pattern is
longer than the text (the bound is negative), i.e. `(|t| + 1) - |p|` times in
truncated `Nat` arithmetic. -/
def naiveStringMatching (t p : List Nat) : NaiveResult :=
  naiveLoop t p 0 (t.length + 1 - p.length) ⟨[], [], 0, []⟩

/-- The pattern occurs in the text at offset `s`. -/
def occAt (t p : List Nat) (s : Nat) : Prop := (t.drop s).take p.length = p

instance (t p : List Nat) : DecidablePred (occAt t p) := fun _ =>
  inferInstanceAs (Decidable (_ = _))

/-- Occurrence offsets below `c`, in ascending order. -/
def occListB (t p : List Nat) (c : Nat) : List Nat :=
  (List.range c).filter fun s => decide (occAt t p s)

/-- All occurrence offsets of `p` in `t`, in ascending order. -/
def occList (t p : List Nat) : List Nat :=
  occListB t p (t.length + 1 - p.length)

/-! ### The inner scan decides occurrence -/

theorem jsEqU_some_right {a : Option Nat} {c : Nat} :
    jsEqU a (some c) = true ↔ a = some c := by
  cases a with
  | none => simp [jsEqU]
  | some b => simp [jsEqU]

theorem scanCmps_eq_iff (t : List Nat) (i : Nat) :
    ∀ (ps : List Nat) (j : Nat),
      (scanCmps t i ps j).2 = j + ps.length ↔ (t.drop (i + j)).take ps.length = ps := by
  intro ps
  induction ps with
  | nil => intro j; simp [scanCmps]
  | cons c ps ih =>
    intro j
    by_cases h : jsEqU t[i + j]? (some c) = true
    · have hc : t[i + j]? = some c := jsEqU_some_right.mp h
      have hlen : i + j < t.length := by
        by_contra hn
        rw [List.getElem?_eq_none (by omega)] at hc
        exact Option.noConfusion hc
      have hget : t[i + j] = c := by
        have h1 := List.getElem?_eq_getElem hlen
        rw [h1] at hc
        exact Option.some.inj hc
      have hdrop : t.drop (i + j) = c :: t.drop (i + j + 1) := by
        rw [List.drop_eq_getElem_cons hlen, hget]
      have step : scanCmps t i (c :: ps) j =
          (⟨i + j, j, jsEqU t[i + j]? (some c)⟩ :: (scanCmps t i ps (j + 1)).1,
            (scanCmps t i ps (j + 1)).2) := by
        simp only [scanCmps, h, if_true]
      rw [step, hdrop]
      simp only [List.length_cons, List.take_succ_cons, List.cons.injEq, true_and]
      have ihj := ih (j + 1)
      rw [show i + (j + 1) = i + j + 1 by omega] at ihj
      rw [← ihj]
      omega
    · have step : scanCmps t i (c :: ps) j =
          ([⟨i + j, j, jsEqU t[i + j]? (some c)⟩], j) := by
        simp only [scanCmps, Bool.not_eq_true] at h ⊢
        rw [h]
        simp
      rw [step]
      simp only [List.length_cons]
      constructor
      · intro h2; omega
      · intro h2
        exfalso
        apply h
        apply jsEqU_some_right.mpr
        have hlen : ps.length + 1 ≤ (t.drop (i + j)).length := by
          have hl := congrArg List.length h2
          rw [List.length_take] at hl
          simp only [List.length_cons] at hl
          omega
        have hdrop : i + j < t.length := by
          rw [List.length_drop] at hlen; omega
        have hsplit : (t.drop (i + j)).take (ps.length + 1) =
            t[i + j] :: (t.drop (i + j + 1)).take ps.length := by
          rw [List.drop_eq_getElem_cons hdrop]; rfl
        rw [hsplit] at h2
        rw [List.getElem?_eq_getElem hdrop]
        exact congrArg some (List.cons.injEq .. ▸ h2).1

theorem scanCmps_full_iff (t p : List Nat) (i : Nat) :
    (scanCmps t i p 0).2 = p.length ↔ occAt t p i := by
  have h := scanCmps_eq_iff t i p 0
  simpa [occAt] using h

/-! ### Characterising the naive loop -/

theorem naiveWindow_foundMatches (t p : List Nat) (i : Nat) (st : NaiveResult) :
    (naiveWindow t p i st).foundMatches =
      st.foundMatches ++ if occAt t p i then [i] else [] := by
  unfold naiveWindow
  by_cases hc : (scanCmps t i p 0).2 = p.length
  · simp [hc, (scanCmps_full_iff t p i).mp hc]
  · have : ¬ occAt t p i := fun h => hc ((scanCmps_full_iff t p i).mpr h)
    simp [hc, this]

theorem naiveLoop_foundMatches (t p : List Nat) :
    ∀ (cnt i : Nat) (st : NaiveResult),
      (naiveLoop t p i cnt st).foundMatches =
        st.foundMatches ++ (List.range' i cnt).filter fun s => decide (occAt t p s) := by
  intro cnt
  induction cnt with
  | zero => intro i st; simp [naiveLoop]
  | succ c ih =>
    intro i st
    show (naiveLoop t p (i + 1) c (naiveWindow t p i st)).foundMatches = _
    rw [ih, naiveWindow_foundMatches, List.range'_succ, List.filter_cons]
    by_cases h : occAt t p i <;> simp [h]

theorem naiveLoop_steps_length (t p : List Nat) :
    ∀ (cnt i : Nat) (st : NaiveResult),
      (naiveLoop t p i cnt st).steps.length = st.steps.length + cnt := by
  intro cnt
  induction cnt with
  | zero => intro i st; simp [naiveLoop]
  | succ c ih =>
    intro i st
    show (naiveLoop t p (i + 1) c (naiveWindow t p i st)).steps.length = _
    rw [ih]
    simp [naiveWindow]
    omega

theorem naiveStringMatching_foundMatches (t p : List Nat) :
    (naiveStringMatching t p).foundMatches = occList t p := by
  unfold naiveStringMatching occList occListB
  rw [naiveLoop_foundMatches, List.range_eq_range']
  simp

/-! ### Cumulative comparison counters

`cumF w acc l` says that in the list `l` of `(totalComparisons, |comparisons|)`
pairs, each recorded total equals the running sum of the comparison counts so
far (each step weighted by an extra `w` units — `0` for Naive/KMP steps,
`1` for Rabin-Karp where every window costs one hash comparison). -/

def cumF (w : Nat) : Nat → List (Nat × Nat) → Prop
  | _, [] => True
  | acc, x :: l => x.1 = acc + w + x.2 ∧ cumF w (acc + w + x.2) l

def wsum (w : Nat) (l : List (Nat × Nat)) : Nat := (l.map fun x => w + x.2).sum

@[simp] theorem wsum_nil (w : Nat) : wsum w [] = 0 := rfl

@[simp] theorem wsum_append (w : Nat) (l₁ l₂ : List (Nat × Nat)) :
    wsum w (l₁ ++ l₂) = wsum w l₁ + wsum w l₂ := by
  simp [wsum]

@[simp] theorem wsum_cons (w : Nat) (x : Nat × Nat) (l : List (Nat × Nat)) :
    wsum w (x :: l) = (w + x.2) + wsum w l := by
  simp [wsum]

theorem cumF_singleton {w acc : Nat} {y : Nat × Nat} (h : y.1 = acc + w + y.2) :
    cumF w acc [y] := ⟨h, trivial⟩

theorem cumF_append {w acc : Nat} {l₁ l₂ : List (Nat × Nat)}
    (h1 : cumF w acc l₁) (h2 : cumF w (acc + wsum w l₁) l₂) :
    cumF w acc (l₁ ++ l₂) := by
  induction l₁ generalizing acc with
  | nil => simpa using h2
  | cons x l ih =>
    obtain ⟨hx, hl⟩ := h1
    refine ⟨hx, ih hl ?_⟩
    have he : acc + w + x.2 + wsum w l = acc + wsum w (x :: l) := by
      rw [wsum_cons]; omega
    rw [he]
    exact h2

theorem cumF_getElem {w : Nat} :
    ∀ {l : List (Nat × Nat)} {acc : Nat}, cumF w acc l →
      ∀ k (hk : k < l.length), (l.get ⟨k, hk⟩).1 = acc + wsum w (l.take (k + 1)) := by
  intro l
  induction l with
  | nil => intro acc _ k hk; simp at hk
  | cons x l ih =>
    intro acc h k hk
    obtain ⟨hx, hl⟩ := h
    cases k with
    | zero =>
      show x.1 = acc + wsum w ((x :: l).take 1)
      rw [show (x :: l).take 1 = [x] from rfl,
        show wsum w [x] = (w + x.2) + 0 from rfl]
      omega
    | succ k =>
      have hih := ih hl k (by simpa using hk)
      simp only [List.get_cons_succ, List.take_succ_cons] at hih ⊢
      rw [hih, wsum_cons]
      omega

/-- Projection of a naive step list to `(totalComparisons, |comparisons|)`. -/
def naiveTC (l : List NaiveStep) : List (Nat × Nat) :=
  l.map fun s => (s.totalComparisons, s.comparisons.length)

theorem naiveTC_append (l₁ l₂ : List NaiveStep) :
    naiveTC (l₁ ++ l₂) = naiveTC l₁ ++ naiveTC l₂ := by
  simp [naiveTC]

theorem naiveTC_singleton (s : NaiveStep) :
    naiveTC [s] = [(s.totalComparisons, s.comparisons.length)] := rfl

theorem naiveWindow_steps (t p : List Nat) (i : Nat) (st : NaiveResult) :
    (naiveWindow t p i st).steps = st.steps ++
      [⟨i, 0, (scanCmps t i p 0).1, st.totalComparisons + (scanCmps t i p 0).1.length,
        if (scanCmps t i p 0).2 = p.length then .matchFound i
        else .mismatch (i + (scanCmps t i p 0).2)⟩] := rfl

theorem naiveWindow_total (t p : List Nat) (i : Nat) (st : NaiveResult) :
    (naiveWindow t p i st).totalComparisons =
      st.totalComparisons + (scanCmps t i p 0).1.length := rfl

theorem naiveLoop_cum (t p : List Nat) :
    ∀ (cnt i : Nat) (st : NaiveResult),
      cumF 0 0 (naiveTC st.steps) →
      st.totalComparisons = wsum 0 (naiveTC st.steps) →
      cumF 0 0 (naiveTC (naiveLoop t p i cnt st).steps) ∧
        (naiveLoop t p i cnt st).totalComparisons =
          wsum 0 (naiveTC (naiveLoop t p i cnt st).steps) := by
  intro cnt
  induction cnt with
  | zero => intro i st h1 h2; exact ⟨h1, h2⟩
  | succ c ih =>
    intro i st h1 h2
    show cumF 0 0 (naiveTC (naiveLoop t p (i + 1) c (naiveWindow t p i st)).steps) ∧ _
    apply ih
    · rw [naiveWindow_steps, naiveTC_append, naiveTC_singleton]
      apply cumF_append h1
      apply cumF_singleton
      show st.totalComparisons + (scanCmps t i p 0).1.length =
        0 + wsum 0 (naiveTC st.steps) + 0 + (scanCmps t i p 0).1.length
      omega
    · rw [naiveWindow_total, naiveWindow_steps, naiveTC_append, naiveTC_singleton,
        wsum_append, wsum_cons, wsum_nil]
      show st.totalComparisons + (scanCmps t i p 0).1.length =
        wsum 0 (naiveTC st.steps) + ((0 + (scanCmps t i p 0).1.length) + 0)
      omega

/-- Sum of `|comparisons|` over a list of naive steps. -/
def naiveCmpSum (l : List NaiveStep) : Nat := (l.map fun s => s.comparisons.length).sum

theorem wsum_zero_naiveTC (l : List NaiveStep) : wsum 0 (naiveTC l) = naiveCmpSum l := by
  unfold wsum naiveTC naiveCmpSum
  rw [List.map_map]
  apply congrArg List.sum
  apply List.map_congr_left
  intro s _
  simp

theorem naiveTC_take (l : List NaiveStep) (k : Nat) :
    (naiveTC l).take k = naiveTC (l.take k) := by
  simp [naiveTC, List.map_take]

/-- Per-step cumulative-count invariant for the naive trace: each step's
`totalComparisons` is the sum of the `comparisons` lengths over all steps up
to and including it. -/
theorem naive_cumulative (t p : List Nat) (k : Nat)
    (hk : k < (naiveStringMatching t p).steps.length) :
    ((naiveStringMatching t p).steps.get ⟨k, hk⟩).totalComparisons =
      naiveCmpSum ((naiveStringMatching t p).steps.take (k + 1)) := by
  have h := naiveLoop_cum t p (t.length + 1 - p.length) 0 ⟨[], [], 0, []⟩ trivial rfl
  have hk' : k < (naiveTC (naiveStringMatching t p).steps).length := by
    simpa [naiveTC] using hk
  have := cumF_getElem h.1 k hk'
  rw [naiveTC_take, wsum_zero_naiveTC] at this
  simpa [naiveTC] using this

/-! ### Claim C10: naive algorithm on an empty pattern -/

theorem scanCmps_nil (t : List Nat) (i j : Nat) : scanCmps t i [] j = ([], j) := rfl

theorem naiveWindow_empty_pattern (t : List Nat) (i : Nat) (st : NaiveResult) :
    naiveWindow t [] i st =
      { steps := st.steps ++ [⟨i, 0, [], st.totalComparisons, .matchFound i⟩]
        foundMatches := st.foundMatches ++ [i]
        totalComparisons := st.totalComparisons
        history := st.history ++ [⟨i, 0, st.totalComparisons⟩] } := by
  unfold naiveWindow
  simp [scanCmps_nil]

theorem naiveLoop_empty_pattern (t : List Nat) :
    ∀ (cnt i : Nat) (st : NaiveResult),
      naiveLoop t [] i cnt st =
        { steps := st.steps ++ (List.range' i cnt).map
            (fun s => ⟨s, 0, [], st.totalComparisons, .matchFound s⟩)
          foundMatches := st.foundMatches ++ List.range' i cnt
          totalComparisons := st.totalComparisons
          history := st.history ++ (List.range' i cnt).map
            (fun s => ⟨s, 0, st.totalComparisons⟩) } := by
  intro cnt
  induction cnt with
  | zero => intro i st; simp [naiveLoop]
  | succ c ih =>
    intro i st
    show naiveLoop t [] (i + 1) c (naiveWindow t [] i st) = _
    rw [naiveWindow_empty_pattern, ih]
    simp [List.range'_succ]

/-- Claim C10: for every text, the naive variant on an empty pattern produces
`|text| + 1` steps, each a match step with no comparisons and a zero running
total, and `matchPositions = [0, 1, ..., |text|]`, including the out-of-range
offset `|text|`. -/
theorem naive_empty_pattern_trace (t : List Nat) :
    (naiveStringMatching t []).steps.length = t.length + 1 ∧
    (∀ s ∈ (naiveStringMatching t []).steps,
      s.comparisons = [] ∧ s.totalComparisons = 0 ∧ s.description = .matchFound s.textIndex) ∧
    (naiveStringMatching t []).foundMatches = List.range (t.length + 1) ∧
    t.length ∈ (naiveStringMatching t []).foundMatches := by
  have e : naiveStringMatching t [] = naiveLoop t [] 0 (t.length + 1) ⟨[], [], 0, []⟩ := by
    unfold naiveStringMatching
    norm_num
  rw [e, naiveLoop_empty_pattern]
  simp only [List.nil_append]
  refine ⟨by simp, ?_, ?_, ?_⟩
  · intro s hs
    simp only [List.mem_map] at hs
    obtain ⟨a, _, rfl⟩ := hs
    exact ⟨rfl, rfl, rfl⟩
  · rw [List.range_eq_range']
  · rw [← List.range_eq_range']
    exact List.mem_range.mpr (by omega)

/-! ### Rabin-Karp: hashing -/

/-- One iteration of the hash loop of `calculateHash`:
`hash = (hash * 256 + str.charCodeAt(i)) % prime` with `prime = 101`.
An out-of-bounds `charCodeAt` is `NaN` and poisons the hash (`none`). -/
def hStep (s : List Nat) (h : Option Nat) (k : Nat) : Option Nat :=
  match h, s[k]? with
  | some hv, some c => some ((hv * 256 + c) % 101)
  | _, _ => none

/-- `calculateHash(str, start, end)` (source lines 250-256): iterate `hStep`
over the index range `[start, end)`. -/
def calculateHash (s : List Nat) (start e : Nat) : Option Nat :=
  (List.range' start (e - start)).foldl (hStep s) (some 0)

/-- The rolling-hash update (source lines 344-352):
`((textHash - ((text.charCodeAt(i) * 256^(m-1)) % prime) + prime) * 256 +
text.charCodeAt(i+m)) % prime`.  In `Nat` the subtraction is reassociated to
`textHash + prime - ...`, which computes the same (never-negative) value;
`NaN` operands poison the result. -/
def rollHash (h cOut cIn : Option Nat) (m : Nat) : Option Nat :=
  match h, cOut, cIn with
  | some hv, some co, some ci =>
      some (((hv + 101 - co * 256 ^ (m - 1) % 101) * 256 + ci) % 101)
  | _, _, _ => none

/-- The window hash obtained by starting from `hash(text, 0, m)` and applying
the roll update once per window shift. -/
def windowHash (t : List Nat) (m : Nat) : Nat → Option Nat
  | 0 => calculateHash t 0 m
  | i + 1 => rollHash (windowHash t m i) t[i]? t[i + m]? m

/-- The mod-free polynomial value `Σ c_k · 256^(len-1-k)` of a code list. -/
def hPoly (l : List Nat) : Nat := l.foldl (fun h c => h * 256 + c) 0

theorem hPoly_foldl_acc : ∀ (l : List Nat) (a : Nat),
    l.foldl (fun h c => h * 256 + c) a = a * 256 ^ l.length + hPoly l := by
  intro l
  induction l with
  | nil => intro a; simp [hPoly]
  | cons c l ih =>
    intro a
    show l.foldl _ (a * 256 + c) = a * 256 ^ (l.length + 1) + hPoly (c :: l)
    rw [ih (a * 256 + c), show hPoly (c :: l) = l.foldl (fun h c => h * 256 + c) c from by
      simp [hPoly], ih c]
    ring

theorem hPoly_cons (c : Nat) (l : List Nat) :
    hPoly (c :: l) = c * 256 ^ l.length + hPoly l := by
  show l.foldl _ (0 * 256 + c) = _
  rw [hPoly_foldl_acc]
  ring_nf

theorem hPoly_concat (l : List Nat) (c : Nat) :
    hPoly (l ++ [c]) = hPoly l * 256 + c := by
  unfold hPoly
  rw [List.foldl_append]
  rfl

theorem foldl_hStep_none (t : List Nat) (ks : List Nat) :
    ks.foldl (hStep t) none = none := by
  induction ks with
  | nil => rfl
  | cons k ks ih => exact ih

theorem foldl_hStep_inBounds (t : List Nat) :
    ∀ (ks : List Nat) (a : Nat), (∀ k ∈ ks, k < t.length) →
      ks.foldl (hStep t) (some a) =
        some ((ks.map fun k => t.getD k 0).foldl (fun h c => (h * 256 + c) % 101) a) := by
  intro ks
  induction ks with
  | nil => intro a _; rfl
  | cons k ks ih =>
    intro a hb
    have hk : k < t.length := hb k (List.mem_cons_self ..)
    have h1 : hStep t (some a) k = some ((a * 256 + t.getD k 0) % 101) := by
      unfold hStep
      rw [List.getElem?_eq_getElem hk, List.getD_eq_getElem t 0 hk]
    show List.foldl (hStep t) (hStep t (some a) k) ks = _
    rw [h1, ih _ (fun x hx => hb x (List.mem_cons_of_mem _ hx))]
    rfl

theorem foldl_mod (cs : List Nat) :
    ∀ a : Nat, cs.foldl (fun h c => (h * 256 + c) % 101) (a % 101) =
      (cs.foldl (fun h c => h * 256 + c) a) % 101 := by
  induction cs with
  | nil => intro a; rfl
  | cons c cs ih =>
    intro a
    show cs.foldl _ ((a % 101 * 256 + c) % 101) = _
    have h1 : (a % 101 * 256 + c) % 101 = (a * 256 + c) % 101 := by omega
    rw [h1, ih (a * 256 + c)]
    rfl

theorem range'_map_getD (t : List Nat) :
    ∀ (cnt s : Nat), s + cnt ≤ t.length →
      (List.range' s cnt).map (fun k => t.getD k 0) = (t.drop s).take cnt := by
  intro cnt
  induction cnt with
  | zero => intro s _; simp
  | succ c ih =>
    intro s hs
    have hslen : s < t.length := by omega
    rw [List.range'_succ, List.map_cons, ih (s + 1) (by omega),
      List.drop_eq_getElem_cons hslen, List.take_succ_cons,
      List.getD_eq_getElem t 0 hslen]

/-- In-bounds characterisation of `calculateHash`: it is the polynomial hash
of the slice, reduced mod 101. -/
theorem calculateHash_eq (t : List Nat) (s e : Nat) (he : e ≤ t.length) :
    calculateHash t s e = some (hPoly ((t.drop s).take (e - s)) % 101) := by
  unfold calculateHash
  have hb : ∀ k ∈ List.range' s (e - s), k < t.length := by
    intro k hk
    rw [List.mem_range'] at hk
    omega
  rw [foldl_hStep_inBounds t _ 0 hb]
  by_cases hse : s ≤ e
  · rw [range'_map_getD t (e - s) s (by omega)]
    rw [show (0 : Nat) = 0 % 101 from rfl, foldl_mod]
    rfl
  · have : e - s = 0 := by omega
    rw [this]
    simp [hPoly]

/-- Out-of-bounds behaviour of `calculateHash`: when the requested range
reaches past the end of the string, `charCodeAt` returns `NaN` and the hash is
poisoned. -/
theorem calculateHash_oob (t : List Nat) (e : Nat) (he : t.length < e) :
    calculateHash t 0 e = none := by
  unfold calculateHash
  have hmem : t.length ∈ List.range' 0 (e - 0) := by
    rw [List.mem_range'_1]
    omega
  obtain ⟨l₁, l₂, hsplit⟩ := List.append_of_mem hmem
  rw [hsplit, List.foldl_append]
  have : ∀ h, List.foldl (hStep t) h (t.length :: l₂) = List.foldl (hStep t) (hStep t h t.length) l₂ :=
    fun h => rfl
  rw [this]
  have hnone : ∀ h, hStep t h t.length = none := by
    intro h
    unfold hStep
    rw [List.getElem?_eq_none (Nat.le_refl _)]
    cases h <;> rfl
  rw [hnone]
  exact foldl_hStep_none t l₂

/-- Claim C5: for `1 ≤ |pattern| ≤ |text|` and every window offset
`i ≤ |text| - |pattern|`, the iterated roll update equals the directly
computed window hash, in exact integer arithmetic with base 256 and
modulus 101. -/
theorem windowHash_eq_calculateHash (t p : List Nat)
    (hm : 1 ≤ p.length) (hmn : p.length ≤ t.length) :
    ∀ i, i ≤ t.length - p.length →
      windowHash t p.length i = calculateHash t i (i + p.length) := by
  set m := p.length with hmdef
  set n := t.length with hndef
  intro i
  induction i with
  | zero =>
    intro _
    show calculateHash t 0 m = calculateHash t 0 (0 + m)
    rw [Nat.zero_add]
  | succ i ih =>
    intro hi
    have hi' : i ≤ n - m := by omega
    have him : i + m < n := by omega
    have hin : i < n := by omega
    show rollHash (windowHash t m i) t[i]? t[i + m]? m = _
    rw [ih hi', calculateHash_eq t i (i + m) (by omega),
      calculateHash_eq t (i + 1) (i + 1 + m) (by omega),
      List.getElem?_eq_getElem hin, List.getElem?_eq_getElem him]
    have hroll : ∀ hv co ci : Nat, rollHash (some hv) (some co) (some ci) m =
        some (((hv + 101 - co * 256 ^ (m - 1) % 101) * 256 + ci) % 101) := fun _ _ _ => rfl
    rw [hroll]
    have hmid : (t.drop i).take (i + m - i) = t[i] :: (t.drop (i + 1)).take (m - 1) := by
      rw [show i + m - i = m from by omega, List.drop_eq_getElem_cons hin]
      conv_lhs => rw [show m = (m - 1) + 1 from by omega]
      rw [List.take_succ_cons]
    have hmid2 : (t.drop (i + 1)).take (i + 1 + m - (i + 1)) =
        (t.drop (i + 1)).take (m - 1) ++ [t[i + m]] := by
      rw [show i + 1 + m - (i + 1) = m from by omega]
      conv_lhs => rw [show m = (m - 1) + 1 from by omega]
      rw [List.take_succ]
      congr 1
      rw [List.getElem?_drop]
      rw [List.getElem?_eq_getElem (show i + 1 + (m - 1) < n from by omega)]
      have hidx : i + 1 + (m - 1) = i + m := by omega
      simp [hidx]
    rw [hmid, hmid2, hPoly_cons, hPoly_concat]
    have hlenmid : ((t.drop (i + 1)).take (m - 1)).length = m - 1 := by
      rw [List.length_take, List.length_drop]
      omega
    rw [hlenmid]
    refine congrArg some ?_
    generalize t[i] * 256 ^ (m - 1) = X
    omega

/-! ### Rabin-Karp: trace generation -/

/-- The `hashInfo` object attached to Rabin-Karp steps.  The JS object
carries a `spurious: true` field only on spurious-hit steps; an absent field
reads as `undefined` (falsy) and is modelled as `false`. -/
structure HashInfo where
  patternHash : Option Nat
  textHash : Option Nat
  hashMatch : Bool
  spurious : Bool
  deriving DecidableEq

/-- Outcome tag of a Rabin-Karp step (the `description` strings). -/
inductive RKDesc
  | hashMatchConfirmed (pos : Nat)
  | hashMatchSpurious
  | hashMismatchSkipped
  deriving DecidableEq

/-- One step object pushed by `rabinKarpStringMatching`. -/
structure RKStep where
  textIndex : Nat
  patternIndex : Nat
  comparisons : List NaiveCmp
  totalComparisons : Nat
  description : RKDesc
  hashInfo : HashInfo
  deriving DecidableEq

/-- Everything `rabinKarpStringMatching` accumulates, including the running
`textHash` variable. -/
structure RKResult where
  steps : List RKStep
  foundMatches : List Nat
  totalComparisons : Nat
  history : List HistoryEntry
  textHash : Option Nat
  deriving DecidableEq

/-- One iteration of the Rabin-Karp window loop (source lines 261-353):
compare hashes (one comparison unit, unconditionally), on a hash match run the
naive-style character confirmation, then roll the hash if another window
remains. -/
def rkWindow (t p : List Nat) (patternHash : Option Nat) (i : Nat)
    (st : RKResult) : RKResult :=
  let hashMatch := jsEqNaN st.textHash patternHash
  let total1 := st.totalComparisons + 1
  let st' :=
    if hashMatch then
      let r := scanCmps t i p 0
      let total := total1 + r.1.length
      if r.2 = p.length then
        { st with
          steps := st.steps ++ [⟨i, 0, r.1, total, .hashMatchConfirmed i,
            ⟨patternHash, st.textHash, true, false⟩⟩]
          foundMatches := st.foundMatches ++ [i]
          totalComparisons := total
          history := st.history ++ [⟨i, 1 + r.1.length, total⟩] }
      else
        { st with
          steps := st.steps ++ [⟨i, 0, r.1, total, .hashMatchSpurious,
            ⟨patternHash, st.textHash, true, true⟩⟩]
          totalComparisons := total
          history := st.history ++ [⟨i, 1 + r.1.length, total⟩] }
    else
      { st with
        steps := st.steps ++ [⟨i, 0, [], total1, .hashMismatchSkipped,
          ⟨patternHash, st.textHash, false, false⟩⟩]
        totalComparisons := total1
        history := st.history ++ [⟨i, 1, total1⟩] }
  if i < t.length - p.length then
    { st' with textHash := rollHash st'.textHash t[i]? t[i + p.length]? p.length }
  else st'

/-- The Rabin-Karp window loop, `cnt` windows starting at offset `i`. -/
def rkLoop (t p : List Nat) (patternHash : Option Nat) :
    Nat → Nat → RKResult → RKResult
  | _, 0, st => st
  | i, cnt + 1, st => rkLoop t p patternHash (i + 1) cnt (rkWindow t p patternHash i st)

/-- `rabinKarpStringMatching` (source lines 242-359).  Note that the first
window hash `calculateHash(text, 0, pattern.length)` is computed
unconditionally, before the loop bound is examined. -/
def rabinKarpStringMatching (t p : List Nat) : RKResult :=
  let patternHash := calculateHash p 0 p.length
  let textHash0 := calculateHash t 0 p.length
  rkLoop t p patternHash 0 (t.length + 1 - p.length) ⟨[], [], 0, [], textHash0⟩

/-! ### Characterising the Rabin-Karp loop -/

theorem rkWindow_textHash (t p : List Nat) (ph : Option Nat) (i : Nat) (st : RKResult) :
    (rkWindow t p ph i st).textHash =
      if i < t.length - p.length then
        rollHash st.textHash t[i]? t[i + p.length]? p.length
      else st.textHash := by
  unfold rkWindow
  by_cases hg : jsEqNaN st.textHash ph = true <;>
    by_cases hs : (scanCmps t i p 0).2 = p.length <;>
      by_cases hr : i < t.length - p.length <;>
        simp [hg, hs, hr]

theorem rkWindow_foundMatches (t p : List Nat) (ph : Option Nat) (i : Nat) (st : RKResult) :
    (rkWindow t p ph i st).foundMatches =
      if jsEqNaN st.textHash ph ∧ (scanCmps t i p 0).2 = p.length then
        st.foundMatches ++ [i]
      else st.foundMatches := by
  unfold rkWindow
  by_cases hg : jsEqNaN st.textHash ph = true <;>
    by_cases hs : (scanCmps t i p 0).2 = p.length <;>
      by_cases hr : i < t.length - p.length <;>
        simp [hg, hs, hr]

/-- The hash of the full pattern. -/
theorem patternHash_eq (p : List Nat) :
    calculateHash p 0 p.length = some (hPoly p % 101) := by
  rw [calculateHash_eq p 0 p.length (Nat.le_refl _)]
  simp

/-- Under the invariant that the running text hash is the current window
hash, the hash gate together with the character scan decides exactly the
occurrences. -/
theorem rkWindow_gate (t p : List Nat) (hm : 1 ≤ p.length) (hmn : p.length ≤ t.length)
    (i : Nat) (hi : i ≤ t.length - p.length) (st : RKResult)
    (hh : st.textHash = windowHash t p.length i) :
    ((jsEqNaN st.textHash (calculateHash p 0 p.length) ∧
        (scanCmps t i p 0).2 = p.length) ↔ occAt t p i) := by
  rw [hh, windowHash_eq_calculateHash t p hm hmn i hi,
    calculateHash_eq t i (i + p.length) (by omega), patternHash_eq]
  constructor
  · intro ⟨_, hs⟩
    exact (scanCmps_full_iff t p i).mp hs
  · intro ho
    have hs := (scanCmps_full_iff t p i).mpr ho
    refine ⟨?_, hs⟩
    have hslice : (t.drop i).take (i + p.length - i) = p := by
      rw [show i + p.length - i = p.length from by omega]
      exact ho
    rw [hslice]
    simp [jsEqNaN]

theorem rkLoop_foundMatches (t p : List Nat) (hm : 1 ≤ p.length)
    (hmn : p.length ≤ t.length) :
    ∀ (cnt i : Nat) (st : RKResult),
      i + cnt = t.length + 1 - p.length →
      st.textHash = windowHash t p.length i →
      (rkLoop t p (calculateHash p 0 p.length) i cnt st).foundMatches =
        st.foundMatches ++ (List.range' i cnt).filter fun s => decide (occAt t p s) := by
  intro cnt
  induction cnt with
  | zero => intro i st _ _; simp [rkLoop]
  | succ c ih =>
    intro i st hcnt hh
    have hi : i ≤ t.length - p.length := by omega
    show (rkLoop t p _ (i + 1) c (rkWindow t p _ i st)).foundMatches = _
    have hgate := rkWindow_gate t p hm hmn i hi st hh
    have hfm := rkWindow_foundMatches t p (calculateHash p 0 p.length) i st
    have hth := rkWindow_textHash t p (calculateHash p 0 p.length) i st
    cases c with
    | zero =>
      show (rkWindow t p _ i st).foundMatches = _
      rw [hfm, List.range'_succ, List.range'_zero, List.filter_cons, List.filter_nil]
      by_cases ho : occAt t p i
      · rw [if_pos (hgate.mpr ho)]
        simp [ho]
      · rw [if_neg (fun hc => ho (hgate.mp hc))]
        simp [ho]
    | succ c' =>
      have hroll : i < t.length - p.length := by omega
      have hinv : (rkWindow t p (calculateHash p 0 p.length) i st).textHash =
          windowHash t p.length (i + 1) := by
        rw [hth, if_pos hroll, hh]
        rfl
      rw [ih (i + 1) (rkWindow t p _ i st) (by omega) hinv, hfm]
      conv_rhs => rw [List.range'_succ, List.filter_cons]
      by_cases ho : occAt t p i
      · rw [if_pos (hgate.mpr ho)]
        simp [ho]
      · rw [if_neg (fun hc => ho (hgate.mp hc))]
        simp [ho]

/-- Match positions of the Rabin-Karp trace are exactly the occurrences. -/
theorem rabinKarpStringMatching_foundMatches (t p : List Nat) (hm : 1 ≤ p.length)
    (hmn : p.length ≤ t.length) :
    (rabinKarpStringMatching t p).foundMatches = occList t p := by
  unfold rabinKarpStringMatching occList occListB
  rw [rkLoop_foundMatches t p hm hmn (t.length + 1 - p.length) 0 _ (by omega) rfl,
    List.range_eq_range']
  simp

/-! ### Rabin-Karp cumulative counters -/

/-- Projection of a Rabin-Karp step list to `(totalComparisons, |comparisons|)`. -/
def rkTC (l : List RKStep) : List (Nat × Nat) :=
  l.map fun s => (s.totalComparisons, s.comparisons.length)

theorem rkTC_append (l₁ l₂ : List RKStep) : rkTC (l₁ ++ l₂) = rkTC l₁ ++ rkTC l₂ := by
  simp [rkTC]

/-- The single step object a Rabin-Karp window pushes. -/
def rkStepOf (t p : List Nat) (ph : Option Nat) (i : Nat) (st : RKResult) : RKStep :=
  if jsEqNaN st.textHash ph then
    if (scanCmps t i p 0).2 = p.length then
      ⟨i, 0, (scanCmps t i p 0).1,
        st.totalComparisons + 1 + (scanCmps t i p 0).1.length,
        .hashMatchConfirmed i, ⟨ph, st.textHash, true, false⟩⟩
    else
      ⟨i, 0, (scanCmps t i p 0).1,
        st.totalComparisons + 1 + (scanCmps t i p 0).1.length,
        .hashMatchSpurious, ⟨ph, st.textHash, true, true⟩⟩
  else ⟨i, 0, [], st.totalComparisons + 1, .hashMismatchSkipped,
    ⟨ph, st.textHash, false, false⟩⟩

theorem rkWindow_steps (t p : List Nat) (ph : Option Nat) (i : Nat) (st : RKResult) :
    (rkWindow t p ph i st).steps = st.steps ++ [rkStepOf t p ph i st] := by
  unfold rkWindow rkStepOf
  by_cases hg : jsEqNaN st.textHash ph = true <;>
    by_cases hs : (scanCmps t i p 0).2 = p.length <;>
      by_cases hr : i < t.length - p.length <;>
        simp [hg, hs, hr]

theorem rkStepOf_total (t p : List Nat) (ph : Option Nat) (i : Nat) (st : RKResult) :
    (rkStepOf t p ph i st).totalComparisons =
      st.totalComparisons + 1 + (rkStepOf t p ph i st).comparisons.length := by
  unfold rkStepOf
  by_cases hg : jsEqNaN st.textHash ph = true <;>
    by_cases hs : (scanCmps t i p 0).2 = p.length <;>
      simp [hg, hs]

theorem rkWindow_total (t p : List Nat) (ph : Option Nat) (i : Nat) (st : RKResult) :
    (rkWindow t p ph i st).totalComparisons = (rkStepOf t p ph i st).totalComparisons := by
  unfold rkWindow rkStepOf
  by_cases hg : jsEqNaN st.textHash ph = true <;>
    by_cases hs : (scanCmps t i p 0).2 = p.length <;>
      by_cases hr : i < t.length - p.length <;>
        simp [hg, hs, hr]

theorem rkWindow_cumShape (t p : List Nat) (ph : Option Nat) (i : Nat) (st : RKResult) :
    ∃ s : RKStep, (rkWindow t p ph i st).steps = st.steps ++ [s] ∧
      s.totalComparisons = st.totalComparisons + 1 + s.comparisons.length ∧
      (rkWindow t p ph i st).totalComparisons = s.totalComparisons :=
  ⟨rkStepOf t p ph i st, rkWindow_steps t p ph i st, rkStepOf_total t p ph i st,
    rkWindow_total t p ph i st⟩

theorem rkLoop_cum (t p : List Nat) (ph : Option Nat) :
    ∀ (cnt i : Nat) (st : RKResult),
      cumF 1 0 (rkTC st.steps) →
      st.totalComparisons = wsum 1 (rkTC st.steps) →
      cumF 1 0 (rkTC (rkLoop t p ph i cnt st).steps) ∧
        (rkLoop t p ph i cnt st).totalComparisons =
          wsum 1 (rkTC (rkLoop t p ph i cnt st).steps) := by
  intro cnt
  induction cnt with
  | zero => intro i st h1 h2; exact ⟨h1, h2⟩
  | succ c ih =>
    intro i st h1 h2
    show cumF 1 0 (rkTC (rkLoop t p ph (i + 1) c (rkWindow t p ph i st)).steps) ∧ _
    obtain ⟨s, hsteps, hstot, htot⟩ := rkWindow_cumShape t p ph i st
    apply ih
    · rw [hsteps, rkTC_append]
      apply cumF_append h1
      apply cumF_singleton
      show s.totalComparisons = 0 + wsum 1 (rkTC st.steps) + 1 + s.comparisons.length
      omega
    · rw [htot, hsteps, rkTC_append]
      rw [wsum_append]
      have : wsum 1 (rkTC [s]) = (1 + s.comparisons.length) + 0 := rfl
      rw [this]
      omega

/-- Sum of `|comparisons|` over a list of Rabin-Karp steps. -/
def rkCmpSum (l : List RKStep) : Nat := (l.map fun s => s.comparisons.length).sum

theorem wsum_one_rkTC (l : List RKStep) : wsum 1 (rkTC l) = l.length + rkCmpSum l := by
  induction l with
  | nil => rfl
  | cons s l ih =>
    show wsum 1 ((s.totalComparisons, s.comparisons.length) :: rkTC l) = _
    rw [wsum_cons, ih]
    show 1 + s.comparisons.length + _ = l.length + 1 + ((s.comparisons.length :: _).sum)
    simp [rkCmpSum]
    omega

theorem rkTC_take (l : List RKStep) (k : Nat) : (rkTC l).take k = rkTC (l.take k) := by
  simp [rkTC, List.map_take]

/-- Per-step cumulative-count invariant for the Rabin-Karp trace: each step's
`totalComparisons` is the sum of `|comparisons|` over the steps up to and
including it, plus one hash-comparison unit per window processed so far. -/
theorem rk_cumulative (t p : List Nat) (k : Nat)
    (hk : k < (rabinKarpStringMatching t p).steps.length) :
    ((rabinKarpStringMatching t p).steps.get ⟨k, hk⟩).totalComparisons =
      (k + 1) + rkCmpSum ((rabinKarpStringMatching t p).steps.take (k + 1)) := by
  have h := rkLoop_cum t p (calculateHash p 0 p.length)
    (t.length + 1 - p.length) 0 ⟨[], [], 0, [], calculateHash t 0 p.length⟩ trivial rfl
  rw [show rkLoop t p (calculateHash p 0 p.length) 0 (t.length + 1 - p.length)
      ⟨[], [], 0, [], calculateHash t 0 p.length⟩ = rabinKarpStringMatching t p from rfl] at h
  have hk' : k < (rkTC (rabinKarpStringMatching t p).steps).length := by
    simpa [rkTC] using hk
  have hget := cumF_getElem h.1 k hk'
  rw [rkTC_take, wsum_one_rkTC] at hget
  have hlen : ((rabinKarpStringMatching t p).steps.take (k + 1)).length = k + 1 := by
    rw [List.length_take]
    omega
  rw [hlen] at hget
  simpa [rkTC] using hget

/-! ### Behaviour when the pattern is longer than the text -/

/-- Claim C9: the initial window hash is computed unconditionally; when
`|pattern| > |text|` it reads the text out of bounds (the `NaN`-poisoned
branch of the embedding), even though the window loop then runs zero times
and the trace is empty. -/
theorem rk_longPattern_oob (t p : List Nat) (h : t.length < p.length) :
    calculateHash t 0 p.length = none ∧
    (rabinKarpStringMatching t p).steps = [] ∧
    (rabinKarpStringMatching t p).foundMatches = [] ∧
    (rabinKarpStringMatching t p).textHash = none := by
  have hnone := calculateHash_oob t p.length h
  have hcnt : t.length + 1 - p.length = 0 := by omega
  refine ⟨hnone, ?_, ?_, ?_⟩ <;>
    · unfold rabinKarpStringMatching
      rw [hcnt]
      show _ = _
      simp [rkLoop, hnone]

theorem naive_longPattern_empty (t p : List Nat) (h : t.length < p.length) :
    (naiveStringMatching t p).steps = [] ∧
    (naiveStringMatching t p).foundMatches = [] := by
  have hcnt : t.length + 1 - p.length = 0 := by omega
  unfold naiveStringMatching
  rw [hcnt]
  exact ⟨rfl, rfl⟩

/-! ### KMP: the prefix table -/

/-- The `while (i < pattern.length)` loop of `computeKMPPrefixTable`
(source lines 127-149), with explicit fuel.  The loop always terminates —
fuel `2·|p| + 1` is proved sufficient below — so the fuel-exhaustion branch
(returning the current table) is unreachable from `computeKMPPrefixTable`.
The read `lps[len - 1]` only happens for `1 ≤ len < |p|` and is always in
bounds, so it is rendered with `getD`. -/
def lpsLoop (p : List Nat) : Nat → Nat → Nat → List Nat → List Nat
  | 0, _, _, lps => lps
  | fuel + 1, i, len, lps =>
    if i < p.length then
      if jsEqU p[i]? p[len]? then
        lpsLoop p fuel (i + 1) (len + 1) (lps.set i (len + 1))
      else if len ≠ 0 then
        lpsLoop p fuel i (lps.getD (len - 1) 0) lps
      else
        lpsLoop p fuel (i + 1) 0 (lps.set i 0)
    else lps

/-- `computeKMPPrefixTable` (source lines 127-149): `lps = Array(m).fill(0)`,
`len = 0`, `i = 1`, then the loop. -/
def computeKMPPrefixTable (p : List Nat) : List Nat :=
  lpsLoop p (2 * p.length + 1) 1 0 (List.replicate p.length 0)

/-! ### Border theory for the failure function -/

/-- `b` is the length of a proper border of the length-`q` prefix of `p`:
a prefix of `p` of length `b < q` that is also a suffix of `p.take q`. -/
def IsBorder (p : List Nat) (q b : Nat) : Prop := b < q ∧ p.take b <:+ p.take q

instance (p : List Nat) (q b : Nat) : Decidable (IsBorder p q b) :=
  inferInstanceAs (Decidable (_ ∧ _))

/-- The failure function: the greatest proper-border length of the length-`q`
prefix of `p` (`0` if only the empty border exists). -/
def failF (p : List Nat) (q : Nat) : Nat :=
  Nat.findGreatest (fun b => IsBorder p q b) (q - 1)

theorem isBorder_zero (p : List Nat) (q : Nat) (hq : 1 ≤ q) : IsBorder p q 0 :=
  ⟨hq, by simp⟩

theorem suffix_of_suffix_length_le {l₁ l₂ l : List Nat}
    (h1 : l₁ <:+ l) (h2 : l₂ <:+ l) (hl : l₁.length ≤ l₂.length) : l₁ <:+ l₂ := by
  obtain ⟨w, rfl⟩ := h2
  have he := List.suffix_iff_eq_drop.mp h1
  rw [List.length_append] at he
  rw [show w.length + l₂.length - l₁.length = w.length + (l₂.length - l₁.length) by omega]
    at he
  rw [List.drop_append] at he
  rw [he]
  exact List.drop_suffix _ _

theorem concat_suffix_concat {l₁ l₂ : List Nat} {a c : Nat} :
    l₁ ++ [a] <:+ l₂ ++ [c] ↔ a = c ∧ l₁ <:+ l₂ := by
  rw [← List.reverse_prefix]
  simp only [List.reverse_append, List.reverse_singleton, List.singleton_append]
  rw [List.cons_prefix_cons, List.reverse_prefix]

theorem border_nested {p : List Nat} {q b₁ b₂ : Nat}
    (h1 : IsBorder p q b₁) (h2 : IsBorder p q b₂) (hb : b₁ < b₂) :
    IsBorder p b₂ b₁ := by
  refine ⟨hb, suffix_of_suffix_length_le h1.2 h2.2 ?_⟩
  rw [List.length_take, List.length_take]
  omega

theorem border_trans {p : List Nat} {q b c : Nat}
    (h1 : IsBorder p q b) (h2 : IsBorder p b c) : IsBorder p q c :=
  ⟨Nat.lt_trans h2.1 h1.1, h2.2.trans h1.2⟩

theorem take_succ_concat {p : List Nat} {k : Nat} (hk : k < p.length) :
    p.take (k + 1) = p.take k ++ [p[k]] := by
  rw [List.take_succ, List.getElem?_eq_getElem hk]
  rfl

theorem border_ext_mpr {p : List Nat} {q b : Nat} (hq : q < p.length) (hb : b < q)
    (h : IsBorder p q b) (hch : p[b]? = p[q]?) : IsBorder p (q + 1) (b + 1) := by
  refine ⟨by omega, ?_⟩
  rw [take_succ_concat hq, take_succ_concat (show b < p.length from by omega)]
  rw [concat_suffix_concat]
  refine ⟨?_, h.2⟩
  have h1 := List.getElem?_eq_getElem hq
  have h2 := List.getElem?_eq_getElem (show b < p.length from by omega)
  rw [h1, h2] at hch
  exact Option.some.inj hch

theorem border_ext_mp {p : List Nat} {q b : Nat} (hq : q < p.length)
    (h : IsBorder p (q + 1) (b + 1)) : IsBorder p q b ∧ p[b]? = p[q]? := by
  have hb : b < q := by have h1 := h.1; omega
  have hsf := h.2
  rw [take_succ_concat hq, take_succ_concat (show b < p.length from by omega)] at hsf
  rw [concat_suffix_concat] at hsf
  refine ⟨⟨hb, hsf.2⟩, ?_⟩
  rw [List.getElem?_eq_getElem hq, List.getElem?_eq_getElem (show b < p.length from by omega)]
  exact congrArg some hsf.1

theorem failF_isBorder (p : List Nat) (q : Nat) (hq : 1 ≤ q) :
    IsBorder p q (failF p q) :=
  Nat.findGreatest_spec (Nat.zero_le _) (isBorder_zero p q hq)

theorem failF_lt (p : List Nat) (q : Nat) (hq : 1 ≤ q) : failF p q < q :=
  Nat.lt_of_le_of_lt (Nat.findGreatest_le _) (by omega)

theorem le_failF {p : List Nat} {q b : Nat} (h : IsBorder p q b) : b ≤ failF p q :=
  Nat.le_findGreatest (by have h1 := h.1; omega) h

/-! ### The prefix-table loop computes the failure function -/

theorem lpsLoop_spec (p : List Nat) :
    ∀ (fuel i len : Nat) (lps : List Nat),
      1 ≤ i → i ≤ p.length → lps.length = p.length →
      (∀ k, k < i → lps[k]? = some (failF p (k + 1))) →
      IsBorder p i len →
      (∀ b, IsBorder p i b → len < b → p[b]? ≠ p[i]?) →
      2 * (p.length - i) + len + 1 ≤ fuel →
      (lpsLoop p fuel i len lps).length = p.length ∧
      ∀ k, k < p.length → (lpsLoop p fuel i len lps)[k]? = some (failF p (k + 1)) := by
  intro fuel
  induction fuel with
  | zero => intro i len lps _ _ _ _ _ _ hfuel; omega
  | succ fuel ih =>
    intro i len lps hi1 him hlen hc he hf hfuel
    by_cases hltm : i < p.length
    · have hlenlt : len < i := he.1
      have hleni : len < p.length := by omega
      have hcmp : jsEqU p[i]? p[len]? = (p[i] == p[len]) := by
        rw [List.getElem?_eq_getElem hltm, List.getElem?_eq_getElem hleni]
        rfl
      by_cases heq : p[i] = p[len]
      · -- characters match: `len++; lps[i] = len; i++`
        have hch : p[len]? = p[i]? := by
          rw [List.getElem?_eq_getElem hltm, List.getElem?_eq_getElem hleni, heq]
        have hstep : lpsLoop p (fuel + 1) i len lps =
            lpsLoop p fuel (i + 1) (len + 1) (lps.set i (len + 1)) := by
          show (if i < p.length then _ else _) = _
          rw [if_pos hltm, hcmp, if_pos (by simpa using heq)]
        rw [hstep]
        have hb' : IsBorder p (i + 1) (len + 1) := border_ext_mpr hltm hlenlt he hch
        have hfail : failF p (i + 1) = len + 1 := by
          have hle : len + 1 ≤ failF p (i + 1) := le_failF hb'
          have hge : failF p (i + 1) ≤ len + 1 := by
            by_contra hgt
            push_neg at hgt
            have hbb := failF_isBorder p (i + 1) (by omega)
            obtain ⟨bb, hbbeq⟩ : ∃ bb, failF p (i + 1) = bb + 1 := ⟨failF p (i + 1) - 1, by omega⟩
            rw [hbbeq] at hbb hgt
            obtain ⟨hbbord, hbbch⟩ := border_ext_mp hltm hbb
            exact hf bb hbbord (by omega) hbbch
          omega
        refine ih (i + 1) (len + 1) (lps.set i (len + 1)) (by omega) (by omega)
          (by simpa using hlen) ?_ hb' ?_ (by omega)
        · intro k hk
          rcases Nat.lt_or_ge k i with hki | hki
          · rw [List.getElem?_set_ne (by omega)]
            exact hc k hki
          · have hki' : k = i := by omega
            subst hki'
            rw [List.getElem?_set_eq_of_lt _ (by omega), hfail]
        · intro b hbord hbgt
          have hble := le_failF hbord
          rw [hfail] at hble
          omega
      · -- characters differ
        have hch : p[len]? ≠ p[i]? := by
          rw [List.getElem?_eq_getElem hltm, List.getElem?_eq_getElem hleni]
          intro hcon
          exact heq (Option.some.inj hcon).symm
        by_cases hlz : len = 0
        · -- `len == 0`: `lps[i] = 0; i++`
          subst hlz
          have hstep : lpsLoop p (fuel + 1) i 0 lps =
              lpsLoop p fuel (i + 1) 0 (lps.set i 0) := by
            show (if i < p.length then _ else _) = _
            rw [if_pos hltm, hcmp, if_neg (by simpa using heq), if_neg (by omega)]
          rw [hstep]
          have hfail : failF p (i + 1) = 0 := by
            apply Nat.findGreatest_eq_zero_iff.mpr
            intro b hb0 _ hbord
            obtain ⟨bb, rfl⟩ : ∃ bb, b = bb + 1 := ⟨b - 1, by omega⟩
            obtain ⟨hbbord, hbbch⟩ := border_ext_mp hltm hbord
            rcases Nat.eq_zero_or_pos bb with hbb0 | hbbpos
            · subst hbb0
              exact hch hbbch
            · exact hf bb hbbord hbbpos hbbch
          refine ih (i + 1) 0 (lps.set i 0) (by omega) (by omega)
            (by simpa using hlen) ?_ (isBorder_zero p (i + 1) (by omega)) ?_ (by omega)
          · intro k hk
            rcases Nat.lt_or_ge k i with hki | hki
            · rw [List.getElem?_set_ne (by omega)]
              exact hc k hki
            · have hki' : k = i := by omega
              subst hki'
              rw [List.getElem?_set_eq_of_lt _ (by omega), hfail]
          · intro b hbord hbgt
            have hble := le_failF hbord
            rw [hfail] at hble
            omega
        · -- `len != 0`: `len = lps[len - 1]`
          have hstep : lpsLoop p (fuel + 1) i len lps =
              lpsLoop p fuel i (lps.getD (len - 1) 0) lps := by
            show (if i < p.length then _ else _) = _
            rw [if_pos hltm, hcmp, if_neg (by simpa using heq), if_pos hlz]
          have hgetd : lps.getD (len - 1) 0 = failF p len := by
            rw [List.getD_eq_getElem?_getD, hc (len - 1) (by omega),
              show len - 1 + 1 = len from by omega]
            rfl
          rw [hstep, hgetd]
          have hfb := failF_isBorder p len (by omega)
          have he' : IsBorder p i (failF p len) := border_trans he hfb
          have hf' : ∀ b, IsBorder p i b → failF p len < b → p[b]? ≠ p[i]? := by
            intro b hbord hbgt
            rcases Nat.lt_trichotomy b len with hbl | hbe | hbg
            · have hnest : IsBorder p len b := border_nested hbord he hbl
              have := le_failF hnest
              omega
            · subst hbe
              exact hch
            · exact hf b hbord hbg
          exact ih i (failF p len) lps hi1 him hlen hc he' hf'
            (by have := failF_lt p len (by omega); omega)
    · -- loop exit: `i = p.length`
      have hieq : i = p.length := by omega
      have hstep : lpsLoop p (fuel + 1) i len lps = lps := by
        show (if i < p.length then _ else _) = _
        rw [if_neg hltm]
      rw [hstep]
      subst hieq
      exact ⟨hlen, fun k hk => hc k hk⟩

theorem computeKMPPrefixTable_spec (p : List Nat) (hm : 1 ≤ p.length) :
    (computeKMPPrefixTable p).length = p.length ∧
    ∀ k, k < p.length → (computeKMPPrefixTable p)[k]? = some (failF p (k + 1)) := by
  unfold computeKMPPrefixTable
  refine lpsLoop_spec p (2 * p.length + 1) 1 0 (List.replicate p.length 0)
    (Nat.le_refl 1) hm (by simp) ?_ (isBorder_zero p 1 (Nat.le_refl 1)) ?_ (by omega)
  · intro k hk
    have hk0 : k = 0 := by omega
    subst hk0
    rw [List.getElem?_replicate]
    rw [if_pos (by omega)]
    rfl
  · intro b hbord hbgt
    have := hbord.1
    omega

theorem failF_le (p : List Nat) (k : Nat) : failF p (k + 1) ≤ k :=
  Nat.findGreatest_le _

/-! ### KMP: the search loop -/

/-- The `prefixUse` object (`{ oldJ, newJ }`); in JS both fields can be
`undefined` (when the pattern is empty). -/
structure KMPPrefixUse where
  oldJ : Option Nat
  newJ : Option Nat
  deriving DecidableEq

/-- Outcome tag of a KMP step (the `description` strings). -/
inductive KMPDesc
  | matchFound (pos : Nat)
  | mismatchShift
  | mismatchAtStart
  deriving DecidableEq

/-- One comparison record of the KMP loop; `patternIndex` is the JS variable
`j`, which can be `undefined`. -/
structure KMPCmp where
  textIndex : Nat
  patternIndex : Option Nat
  matched : Bool
  deriving DecidableEq

/-- One step object pushed by `kmpStringMatching`.  `textIndex` is `i - j`
in JS arithmetic: `NaN` (`none`) when `j` is `undefined`, an integer
otherwise. -/
structure KMPStep where
  textIndex : Option Int
  patternIndex : Nat
  comparisons : List KMPCmp
  totalComparisons : Nat
  description : KMPDesc
  prefixUse : Option KMPPrefixUse
  deriving DecidableEq

/-- The mutable state of the KMP search loop.  The pattern cursor `j` becomes
`undefined` in JS when the pattern is empty (through `lps[-1]`), hence
`Option Nat`. -/
structure KMPState where
  i : Nat
  j : Option Nat
  stepIdx : Nat
  steps : List KMPStep
  foundMatches : List Nat
  totalComparisons : Nat
  history : List HistoryEntry
  deriving DecidableEq

/-- JS `pattern[j]` with a possibly-`undefined` index. -/
def optIdx (p : List Nat) : Option Nat → Option Nat
  | some jj => p[jj]?
  | none => none

/-- JS `lps[j - 1]`: for `j = 0` this reads `lps[-1]` (`undefined`), for
`j = undefined` it reads `lps[NaN]` (`undefined`). -/
def lpsAt (lps : List Nat) : Option Nat → Option Nat
  | some (jj + 1) => lps[jj]?
  | _ => none

/-- JS `j !== 0` (true for `undefined`). -/
def jsNeZero : Option Nat → Bool
  | some 0 => false
  | _ => true

/-- JS `i - j` (an `Int`, or `NaN` when `j` is `undefined`). -/
def subJS (i : Nat) : Option Nat → Option Int
  | some jj => some ((i : Int) - (jj : Int))
  | none => none

/-- The comparison outcome `text[i] === pattern[j]` of the current KMP
iteration. -/
def kcm (t p : List Nat) (st : KMPState) : Bool := jsEqU t[st.i]? (optIdx p st.j)

/-- The text cursor after the possible joint advance. -/
def ki (t p : List Nat) (st : KMPState) : Nat := if kcm t p st then st.i + 1 else st.i

/-- The pattern cursor after the possible joint advance. -/
def kj (t p : List Nat) (st : KMPState) : Option Nat :=
  if kcm t p st then st.j.map (· + 1) else st.j

/-- The `else if (i < text.length && text[i] !== pattern[j])` condition,
evaluated on the advanced cursors. -/
def kcond (t p : List Nat) (st : KMPState) : Bool :=
  decide (ki t p st < t.length) && !jsEqU t[ki t p st]? (optIdx p (kj t p st))

/-- One iteration of the `while (i < text.length)` loop of
`kmpStringMatching` (source lines 163-233), written with the named
sub-expressions above.  The match position pushed on `foundMatches` is
`i - j` with `j = pattern.length ≤ i` in every reachable state, so it is
recorded as the `Nat` `i - pattern.length`. -/
def kmpStep (t p lps : List Nat) (st : KMPState) : KMPState :=
  let cmp : KMPCmp := ⟨st.i, st.j, kcm t p st⟩
  let total := st.totalComparisons + 1
  let i := ki t p st
  let j := kj t p st
  if j == some p.length then
    { i := i
      j := lpsAt lps j
      stepIdx := st.stepIdx + 1
      steps := st.steps ++ [⟨subJS i j, 0, [cmp], total, .matchFound (i - p.length), none⟩]
      foundMatches := st.foundMatches ++ [i - p.length]
      totalComparisons := total
      history := st.history ++ [⟨st.stepIdx, 1, total⟩] }
  else if kcond t p st then
    if jsNeZero j then
      let newJ := lpsAt lps j
      { i := i
        j := newJ
        stepIdx := st.stepIdx + 1
        steps := st.steps ++ [⟨subJS i newJ, 0, [cmp], total, .mismatchShift, some ⟨j, newJ⟩⟩]
        foundMatches := st.foundMatches
        totalComparisons := total
        history := st.history ++ [⟨st.stepIdx, 1, total⟩] }
    else
      { i := i + 1
        j := j
        stepIdx := st.stepIdx + 1
        steps := st.steps ++ [⟨subJS i j, 0, [cmp], total, .mismatchAtStart, none⟩]
        foundMatches := st.foundMatches
        totalComparisons := total
        history := st.history ++ [⟨st.stepIdx, 1, total⟩] }
  else
    { st with i := i, j := j, totalComparisons := total }

/-- The KMP search loop with explicit fuel; `none` on fuel exhaustion.  The
loop does not always terminate in JS (empty pattern, non-empty text), so the
fueled form is essential. -/
def kmpLoop (t p lps : List Nat) : Nat → KMPState → Option KMPState
  | fuel, st =>
    if t.length ≤ st.i then some st
    else
      match fuel with
      | 0 => none
      | fuel' + 1 => kmpLoop t p lps fuel' (kmpStep t p lps st)

/-- `kmpStringMatching` (source lines 152-239): build the prefix table, then
run the search loop from `i = 0`, `j = 0`.  Fuel `2·|text| + 1` is proved
sufficient whenever the pattern is non-empty. -/
def kmpStringMatching (t p : List Nat) : Option KMPState :=
  let lps := computeKMPPrefixTable p
  kmpLoop t p lps (2 * t.length + 1) ⟨0, some 0, 0, [], [], 0, []⟩

/-! ### The count-only variants (source lines 387-483) -/

/-- Inner loop of `countNaiveComparisons` (source lines 389-394): one
comparison per iteration, break on mismatch. -/
def countScan (t : List Nat) (i : Nat) : List Nat → Nat → Nat
  | [], _ => 0
  | c :: ps, j => if jsEqU t[i + j]? (some c) then 1 + countScan t i ps (j + 1) else 1

/-- `countNaiveComparisons` (source lines 387-396). -/
def countNaiveComparisons (t p : List Nat) : Nat :=
  (List.range (t.length + 1 - p.length)).foldl (fun acc i => acc + countScan t i p 0) 0

/-- The LPS loop of `countKMPComparisons` (source lines 402-419): identical
to `lpsLoop` but counting one comparison per iteration. -/
def lpsLoopC (p : List Nat) : Nat → Nat → Nat → List Nat → Nat → List Nat × Nat
  | 0, _, _, lps, cnt => (lps, cnt)
  | fuel + 1, i, len, lps, cnt =>
    if i < p.length then
      if jsEqU p[i]? p[len]? then
        lpsLoopC p fuel (i + 1) (len + 1) (lps.set i (len + 1)) (cnt + 1)
      else if len ≠ 0 then
        lpsLoopC p fuel i (lps.getD (len - 1) 0) lps (cnt + 1)
      else
        lpsLoopC p fuel (i + 1) 0 (lps.set i 0) (cnt + 1)
    else (lps, cnt)

/-- The search loop of `countKMPComparisons` (source lines 422-440):
identical control flow to `kmpStep`/`kmpLoop`, keeping only the counter. -/
def countKMPLoop (t p lps : List Nat) : Nat → Nat → Option Nat → Nat → Option Nat
  | fuel, i, j, cnt =>
    if t.length ≤ i then some cnt
    else
      match fuel with
      | 0 => none
      | fuel' + 1 =>
        let cm := jsEqU t[i]? (optIdx p j)
        let cnt' := cnt + 1
        let i' := if cm then i + 1 else i
        let j' := if cm then j.map (· + 1) else j
        if j' == some p.length then
          countKMPLoop t p lps fuel' i' (lpsAt lps j') cnt'
        else if decide (i' < t.length) && !jsEqU t[i']? (optIdx p j') then
          if jsNeZero j' then countKMPLoop t p lps fuel' i' (lpsAt lps j') cnt'
          else countKMPLoop t p lps fuel' (i' + 1) j' cnt'
        else countKMPLoop t p lps fuel' i' j' cnt'

/-- `countKMPComparisons` (source lines 398-443). -/
def countKMPComparisons (t p : List Nat) : Option Nat :=
  let r := lpsLoopC p (2 * p.length + 1) 1 0 (List.replicate p.length 0) 0
  countKMPLoop t p r.1 (2 * t.length + 1) 0 (some 0) r.2

/-- One window of `countRabinKarpComparisons` acting on `(count, textHash)`. -/
def countRKWindow (t p : List Nat) (ph : Option Nat) (i : Nat) :
    Nat × Option Nat → Nat × Option Nat
  | (cnt, th) =>
    let cnt1 := cnt + 1
    let cnt2 := if jsEqNaN th ph then cnt1 + countScan t i p 0 else cnt1
    let th' := if i < t.length - p.length then
        rollHash th t[i]? t[i + p.length]? p.length
      else th
    (cnt2, th')

/-- The window loop of `countRabinKarpComparisons`. -/
def countRKLoop (t p : List Nat) (ph : Option Nat) :
    Nat → Nat → Nat × Option Nat → Nat × Option Nat
  | _, 0, s => s
  | i, cnt + 1, s => countRKLoop t p ph (i + 1) cnt (countRKWindow t p ph i s)

/-- `countRabinKarpComparisons` (source lines 445-483). -/
def countRabinKarpComparisons (t p : List Nat) : Nat :=
  (countRKLoop t p (calculateHash p 0 p.length) 0 (t.length + 1 - p.length)
    (0, calculateHash t 0 p.length)).1

/-! ### `generateSteps` (source lines 47-67) -/

/-- A step object of any of the three algorithms, as stored in the untyped JS
`generatedSteps` array. -/
inductive StepObj
  | naiveS (s : NaiveStep)
  | kmpS (s : KMPStep)
  | rkS (s : RKStep)
  deriving DecidableEq

/-- The algorithm tags, as code lists of the strings `"naive"`, `"kmp"`,
`"rabin-karp"`. -/
def tagNaive : List Nat := [110, 97, 105, 118, 101]

def tagKMP : List Nat := [107, 109, 112]

def tagRabinKarp : List Nat := [114, 97, 98, 105, 110, 45, 107, 97, 114, 112]

/-- `generateSteps` (source lines 47-67): dispatch on the algorithm tag; any
unrecognized tag falls through to the `default: break` case and returns the
initial empty array.  There is no input validation and no error channel; the
result is `none` only if the selected algorithm itself fails to terminate
(KMP with an empty pattern and non-empty text). -/
def generateSteps (alg t p : List Nat) : Option (List StepObj) :=
  if alg = tagNaive then some ((naiveStringMatching t p).steps.map .naiveS)
  else if alg = tagKMP then (kmpStringMatching t p).map fun r => r.steps.map .kmpS
  else if alg = tagRabinKarp then some ((rabinKarpStringMatching t p).steps.map .rkS)
  else some []

/-! ### The count-only variants agree with the trace loops -/

theorem countScan_eq (t : List Nat) (i : Nat) :
    ∀ (ps : List Nat) (j : Nat), countScan t i ps j = (scanCmps t i ps j).1.length := by
  intro ps
  induction ps with
  | nil => intro j; rfl
  | cons c ps ih =>
    intro j
    by_cases h : jsEqU t[i + j]? (some c) = true
    · simp only [countScan, scanCmps, h, if_true]
      rw [ih (j + 1)]
      simp
      omega
    · simp only [countScan, scanCmps, Bool.not_eq_true] at h ⊢
      rw [h]
      simp

theorem foldl_add_sum (f : Nat → Nat) :
    ∀ (l : List Nat) (a : Nat), l.foldl (fun acc i => acc + f i) a = a + (l.map f).sum := by
  intro l
  induction l with
  | nil => intro a; simp
  | cons x l ih =>
    intro a
    show l.foldl _ (a + f x) = _
    rw [ih (a + f x)]
    simp
    omega

theorem naiveLoop_total (t p : List Nat) :
    ∀ (cnt i : Nat) (st : NaiveResult),
      (naiveLoop t p i cnt st).totalComparisons =
        st.totalComparisons + ((List.range' i cnt).map fun s => (scanCmps t s p 0).1.length).sum := by
  intro cnt
  induction cnt with
  | zero => intro i st; simp [naiveLoop]
  | succ c ih =>
    intro i st
    show (naiveLoop t p (i + 1) c (naiveWindow t p i st)).totalComparisons = _
    rw [ih, naiveWindow_total, List.range'_succ]
    simp
    omega

/-- `countNaiveComparisons` equals the final `totalComparisons` of the naive
trace. -/
theorem countNaive_eq_trace (t p : List Nat) :
    countNaiveComparisons t p = (naiveStringMatching t p).totalComparisons := by
  unfold countNaiveComparisons naiveStringMatching
  rw [naiveLoop_total, List.range_eq_range', foldl_add_sum]
  simp only [Nat.zero_add]
  congr 1
  apply List.map_congr_left
  intro s _
  exact countScan_eq t s p 0

theorem rkWindow_total_explicit (t p : List Nat) (ph : Option Nat) (i : Nat) (st : RKResult) :
    (rkWindow t p ph i st).totalComparisons =
      st.totalComparisons + 1 +
        (if jsEqNaN st.textHash ph then (scanCmps t i p 0).1.length else 0) := by
  unfold rkWindow
  by_cases hg : jsEqNaN st.textHash ph = true <;>
    by_cases hs : (scanCmps t i p 0).2 = p.length <;>
      by_cases hr : i < t.length - p.length <;>
        simp [hg, hs, hr]

theorem countRKWindow_eq (t p : List Nat) (ph : Option Nat) (i : Nat) (st : RKResult) :
    countRKWindow t p ph i (st.totalComparisons, st.textHash) =
      ((rkWindow t p ph i st).totalComparisons, (rkWindow t p ph i st).textHash) := by
  rw [rkWindow_total_explicit, rkWindow_textHash]
  unfold countRKWindow
  rw [countScan_eq]
  by_cases hg : jsEqNaN st.textHash ph = true <;> simp [hg]

theorem countRKLoop_eq (t p : List Nat) (ph : Option Nat) :
    ∀ (cnt i : Nat) (st : RKResult),
      countRKLoop t p ph i cnt (st.totalComparisons, st.textHash) =
        ((rkLoop t p ph i cnt st).totalComparisons, (rkLoop t p ph i cnt st).textHash) := by
  intro cnt
  induction cnt with
  | zero => intro i st; rfl
  | succ c ih =>
    intro i st
    show countRKLoop t p ph (i + 1) c (countRKWindow t p ph i _) = _
    rw [countRKWindow_eq, ih (i + 1) (rkWindow t p ph i st)]
    rfl

/-- `countRabinKarpComparisons` equals the final `totalComparisons` of the
Rabin-Karp trace. -/
theorem countRK_eq_trace (t p : List Nat) :
    countRabinKarpComparisons t p = (rabinKarpStringMatching t p).totalComparisons := by
  unfold countRabinKarpComparisons rabinKarpStringMatching
  have h := countRKLoop_eq t p (calculateHash p 0 p.length) (t.length + 1 - p.length) 0
    ⟨[], [], 0, [], calculateHash t 0 p.length⟩
  rw [show ((⟨[], [], 0, [], calculateHash t 0 p.length⟩ : RKResult).totalComparisons,
      (⟨[], [], 0, [], calculateHash t 0 p.length⟩ : RKResult).textHash) =
      ((0 : Nat), calculateHash t 0 p.length) from rfl] at h
  rw [h]

/-! ### Case analysis of one KMP iteration -/

theorem kmpStep_eq_match (t p lps : List Nat) (st : KMPState)
    (h1 : (kj t p st == some p.length) = true) :
    kmpStep t p lps st =
      ⟨ki t p st, lpsAt lps (kj t p st), st.stepIdx + 1,
        st.steps ++ [⟨subJS (ki t p st) (kj t p st), 0, [⟨st.i, st.j, kcm t p st⟩],
          st.totalComparisons + 1, .matchFound (ki t p st - p.length), none⟩],
        st.foundMatches ++ [ki t p st - p.length], st.totalComparisons + 1,
        st.history ++ [⟨st.stepIdx, 1, st.totalComparisons + 1⟩]⟩ := by
  simp only [kmpStep]
  rw [if_pos h1]

theorem kmpStep_eq_shift (t p lps : List Nat) (st : KMPState)
    (h1 : (kj t p st == some p.length) = false) (h2 : kcond t p st = true)
    (h3 : jsNeZero (kj t p st) = true) :
    kmpStep t p lps st =
      ⟨ki t p st, lpsAt lps (kj t p st), st.stepIdx + 1,
        st.steps ++ [⟨subJS (ki t p st) (lpsAt lps (kj t p st)), 0,
          [⟨st.i, st.j, kcm t p st⟩], st.totalComparisons + 1, .mismatchShift,
          some ⟨kj t p st, lpsAt lps (kj t p st)⟩⟩],
        st.foundMatches, st.totalComparisons + 1,
        st.history ++ [⟨st.stepIdx, 1, st.totalComparisons + 1⟩]⟩ := by
  simp only [kmpStep]
  rw [if_neg (by rw [h1]; exact Bool.false_ne_true), if_pos h2, if_pos h3]

theorem kmpStep_eq_start (t p lps : List Nat) (st : KMPState)
    (h1 : (kj t p st == some p.length) = false) (h2 : kcond t p st = true)
    (h3 : jsNeZero (kj t p st) = false) :
    kmpStep t p lps st =
      ⟨ki t p st + 1, kj t p st, st.stepIdx + 1,
        st.steps ++ [⟨subJS (ki t p st) (kj t p st), 0, [⟨st.i, st.j, kcm t p st⟩],
          st.totalComparisons + 1, .mismatchAtStart, none⟩],
        st.foundMatches, st.totalComparisons + 1,
        st.history ++ [⟨st.stepIdx, 1, st.totalComparisons + 1⟩]⟩ := by
  simp only [kmpStep]
  rw [if_neg (by rw [h1]; exact Bool.false_ne_true), if_pos h2,
    if_neg (by rw [h3]; exact Bool.false_ne_true)]

theorem kmpStep_eq_silent (t p lps : List Nat) (st : KMPState)
    (h1 : (kj t p st == some p.length) = false) (h2 : kcond t p st = false) :
    kmpStep t p lps st =
      ⟨ki t p st, kj t p st, st.stepIdx, st.steps, st.foundMatches,
        st.totalComparisons + 1, st.history⟩ := by
  simp only [kmpStep]
  rw [if_neg (by rw [h1]; exact Bool.false_ne_true),
    if_neg (by rw [h2]; exact Bool.false_ne_true)]

/-! ### `countKMPComparisons` agrees with the trace loop -/

theorem lpsLoopC_fst (p : List Nat) :
    ∀ (fuel i len : Nat) (lps : List Nat) (cnt : Nat),
      (lpsLoopC p fuel i len lps cnt).1 = lpsLoop p fuel i len lps := by
  intro fuel
  induction fuel with
  | zero => intro i len lps cnt; rfl
  | succ fuel ih =>
    intro i len lps cnt
    simp only [lpsLoopC, lpsLoop]
    by_cases h1 : i < p.length
    · simp only [if_pos h1]
      by_cases h2 : jsEqU p[i]? p[len]? = true
      · simp only [if_pos h2]
        exact ih ..
      · simp only [if_neg h2]
        by_cases h3 : len ≠ 0
        · simp only [if_pos h3]
          exact ih ..
        · simp only [if_neg h3]
          exact ih ..
    · simp only [if_neg h1]

theorem countKMPLoop_add (t p lps : List Nat) :
    ∀ (fuel i : Nat) (j : Option Nat) (c d : Nat),
      countKMPLoop t p lps fuel i j (c + d) =
        (countKMPLoop t p lps fuel i j c).map (· + d) := by
  intro fuel
  induction fuel with
  | zero =>
    intro i j c d
    simp only [countKMPLoop]
    by_cases h : t.length ≤ i <;> simp [h]
  | succ fuel ih =>
    intro i j c d
    simp only [countKMPLoop]
    by_cases h : t.length ≤ i
    · simp [h]
    · simp only [if_neg h]
      rw [show c + d + 1 = (c + 1) + d from by omega]
      by_cases h1 : ((if jsEqU t[i]? (optIdx p j) then j.map (· + 1) else j) ==
          some p.length) = true
      · simp only [h1, if_true]
        exact ih ..
      · simp only [h1, Bool.false_eq_true, if_false]
        by_cases h2 : (decide ((if jsEqU t[i]? (optIdx p j) then i + 1 else i) < t.length) &&
            !jsEqU t[if jsEqU t[i]? (optIdx p j) then i + 1 else i]?
              (optIdx p (if jsEqU t[i]? (optIdx p j) then j.map (· + 1) else j))) = true
        · simp only [h2, if_true]
          by_cases h3 : jsNeZero (if jsEqU t[i]? (optIdx p j) then j.map (· + 1) else j) = true
          · simp only [h3, if_true]
            exact ih ..
          · simp only [h3, Bool.false_eq_true, if_false]
            exact ih ..
        · simp only [h2, Bool.false_eq_true, if_false]
          exact ih ..

theorem countKMPLoop_eq (t p lps : List Nat) :
    ∀ (fuel i : Nat) (j : Option Nat) (sIdx : Nat) (steps : List KMPStep)
      (fm : List Nat) (cnt : Nat) (hist : List HistoryEntry),
      countKMPLoop t p lps fuel i j cnt =
        (kmpLoop t p lps fuel ⟨i, j, sIdx, steps, fm, cnt, hist⟩).map
          (·.totalComparisons) := by
  intro fuel
  induction fuel with
  | zero =>
    intro i j sIdx steps fm cnt hist
    simp only [countKMPLoop, kmpLoop]
    by_cases h : t.length ≤ i <;> simp [h]
  | succ fuel ih =>
    intro i j sIdx steps fm cnt hist
    simp only [countKMPLoop, kmpLoop]
    by_cases h : t.length ≤ i
    · simp [h]
    · simp only [if_neg h]
      by_cases h1 : ((if jsEqU t[i]? (optIdx p j) then j.map (· + 1) else j) ==
          some p.length) = true
      · simp only [h1, if_true]
        rw [kmpStep_eq_match t p lps ⟨i, j, sIdx, steps, fm, cnt, hist⟩ h1]
        exact ih ..
      · simp only [h1, Bool.false_eq_true, if_false]
        by_cases h2 : (decide ((if jsEqU t[i]? (optIdx p j) then i + 1 else i) < t.length) &&
            !jsEqU t[if jsEqU t[i]? (optIdx p j) then i + 1 else i]?
              (optIdx p (if jsEqU t[i]? (optIdx p j) then j.map (· + 1) else j))) = true
        · simp only [h2, if_true]
          by_cases h3 : jsNeZero (if jsEqU t[i]? (optIdx p j) then j.map (· + 1) else j) = true
          · simp only [h3, if_true]
            rw [kmpStep_eq_shift t p lps ⟨i, j, sIdx, steps, fm, cnt, hist⟩
              (Bool.eq_false_iff.mpr h1) h2 h3]
            exact ih ..
          · simp only [h3, Bool.false_eq_true, if_false]
            rw [kmpStep_eq_start t p lps ⟨i, j, sIdx, steps, fm, cnt, hist⟩
              (Bool.eq_false_iff.mpr h1) h2 (Bool.eq_false_iff.mpr h3)]
            exact ih ..
        · simp only [h2, Bool.false_eq_true, if_false]
          rw [kmpStep_eq_silent t p lps ⟨i, j, sIdx, steps, fm, cnt, hist⟩
            (Bool.eq_false_iff.mpr h1) (Bool.eq_false_iff.mpr h2)]
          exact ih ..

/-- The prefix-table comparison count of `countKMPComparisons`. -/
def lpsComparisons (p : List Nat) : Nat :=
  (lpsLoopC p (2 * p.length + 1) 1 0 (List.replicate p.length 0) 0).2

/-- `countKMPComparisons` equals the prefix-table comparison count plus the
final `totalComparisons` of the KMP search loop (which counts every loop
iteration, including the ones that emit no step). -/
theorem countKMP_eq_trace (t p : List Nat) :
    countKMPComparisons t p =
      (kmpStringMatching t p).map fun r => r.totalComparisons + lpsComparisons p := by
  show countKMPLoop t p (lpsLoopC p (2 * p.length + 1) 1 0 (List.replicate p.length 0) 0).1
      (2 * t.length + 1) 0 (some 0) (lpsComparisons p) =
    (kmpLoop t p (computeKMPPrefixTable p) (2 * t.length + 1)
      ⟨0, some 0, 0, [], [], 0, []⟩).map fun r => r.totalComparisons + lpsComparisons p
  rw [lpsLoopC_fst]
  rw [show lpsLoop p (2 * p.length + 1) 1 0 (List.replicate p.length 0) =
    computeKMPPrefixTable p from rfl]
  rw [show (lpsComparisons p : Nat) = 0 + lpsComparisons p from by omega]
  rw [countKMPLoop_add t p (computeKMPPrefixTable p) (2 * t.length + 1) 0 (some 0) 0
    (lpsComparisons p)]
  rw [countKMPLoop_eq t p (computeKMPPrefixTable p) (2 * t.length + 1) 0 (some 0) 0 [] [] 0 []]
  rw [Option.map_map]
  congr 1
  funext x
  simp only [Function.comp]
  omega

/-! ### KMP cumulative counters: the recorded totals overcount the steps -/

/-- Projection of a KMP step list to `(totalComparisons, |comparisons|)`. -/
def kmpTC (l : List KMPStep) : List (Nat × Nat) :=
  l.map fun s => (s.totalComparisons, s.comparisons.length)

/-- Sum of `|comparisons|` over a list of KMP steps. -/
def kmpCmpSum (l : List KMPStep) : Nat := (l.map fun s => s.comparisons.length).sum

theorem kmpTC_append (l₁ l₂ : List KMPStep) : kmpTC (l₁ ++ l₂) = kmpTC l₁ ++ kmpTC l₂ := by
  simp [kmpTC]

/-- Each recorded total dominates the running sum of comparison counts. -/
def stepsGE (l : List (Nat × Nat)) : Prop :=
  ∀ k (hk : k < l.length), (l.get ⟨k, hk⟩).1 ≥ wsum 0 (l.take (k + 1))

theorem stepsGE_nil : stepsGE [] := fun k hk => by simp at hk

theorem stepsGE_append {l : List (Nat × Nat)} {y : Nat × Nat}
    (h : stepsGE l) (hy : y.1 ≥ wsum 0 l + y.2) : stepsGE (l ++ [y]) := by
  intro k hk
  rw [List.length_append, List.length_singleton] at hk
  rcases Nat.lt_or_ge k l.length with hkl | hkl
  · have hget : (l ++ [y]).get ⟨k, by rw [List.length_append]; omega⟩ = l.get ⟨k, hkl⟩ := by
      rw [List.get_eq_getElem, List.get_eq_getElem, List.getElem_append_left]
    rw [hget, List.take_append_of_le_length (by omega)]
    exact h k hkl
  · have hkeq : k = l.length := by omega
    subst hkeq
    have hget : (l ++ [y]).get ⟨l.length, by simp⟩ = y := by
      rw [List.get_eq_getElem, List.getElem_append_right (Nat.le_refl _)]
      simp
    rw [hget, List.take_of_length_le (by simp)]
    rw [wsum_append]
    have : wsum 0 [y] = 0 + y.2 + 0 := rfl
    omega

theorem kmpStep_total (t p lps : List Nat) (st : KMPState) :
    (kmpStep t p lps st).totalComparisons = st.totalComparisons + 1 := by
  by_cases h1 : (kj t p st == some p.length) = true
  · rw [kmpStep_eq_match t p lps st h1]
  · by_cases h2 : kcond t p st = true
    · by_cases h3 : jsNeZero (kj t p st) = true
      · rw [kmpStep_eq_shift t p lps st (Bool.eq_false_iff.mpr h1) h2 h3]
      · rw [kmpStep_eq_start t p lps st (Bool.eq_false_iff.mpr h1) h2
          (Bool.eq_false_iff.mpr h3)]
    · rw [kmpStep_eq_silent t p lps st (Bool.eq_false_iff.mpr h1)
        (Bool.eq_false_iff.mpr h2)]

theorem kmpStep_steps_shape (t p lps : List Nat) (st : KMPState) :
    (kmpStep t p lps st).steps = st.steps ∨
      ∃ s : KMPStep, (kmpStep t p lps st).steps = st.steps ++ [s] ∧
        s.totalComparisons = st.totalComparisons + 1 ∧ s.comparisons.length = 1 := by
  by_cases h1 : (kj t p st == some p.length) = true
  · right
    rw [kmpStep_eq_match t p lps st h1]
    exact ⟨_, rfl, rfl, rfl⟩
  · by_cases h2 : kcond t p st = true
    · by_cases h3 : jsNeZero (kj t p st) = true
      · right
        rw [kmpStep_eq_shift t p lps st (Bool.eq_false_iff.mpr h1) h2 h3]
        exact ⟨_, rfl, rfl, rfl⟩
      · right
        rw [kmpStep_eq_start t p lps st (Bool.eq_false_iff.mpr h1) h2
          (Bool.eq_false_iff.mpr h3)]
        exact ⟨_, rfl, rfl, rfl⟩
    · left
      rw [kmpStep_eq_silent t p lps st (Bool.eq_false_iff.mpr h1)
        (Bool.eq_false_iff.mpr h2)]

theorem kmpLoop_stepsGE (t p lps : List Nat) :
    ∀ (fuel : Nat) (st fin : KMPState), kmpLoop t p lps fuel st = some fin →
      stepsGE (kmpTC st.steps) → wsum 0 (kmpTC st.steps) ≤ st.totalComparisons →
      stepsGE (kmpTC fin.steps) := by
  intro fuel
  induction fuel with
  | zero =>
    intro st fin hrun h1 h2
    simp only [kmpLoop] at hrun
    by_cases h : t.length ≤ st.i
    · rw [if_pos h] at hrun
      cases hrun
      exact h1
    · rw [if_neg h] at hrun
      exact Option.noConfusion hrun
  | succ fuel ih =>
    intro st fin hrun h1 h2
    simp only [kmpLoop] at hrun
    by_cases h : t.length ≤ st.i
    · rw [if_pos h] at hrun
      cases hrun
      exact h1
    · rw [if_neg h] at hrun
      have htot := kmpStep_total t p lps st
      rcases kmpStep_steps_shape t p lps st with hsh | ⟨s, hsh, hstot, hslen⟩
      · exact ih (kmpStep t p lps st) fin hrun (hsh ▸ h1) (by rw [hsh]; omega)
      · refine ih (kmpStep t p lps st) fin hrun ?_ ?_
        · rw [hsh, kmpTC_append]
          apply stepsGE_append h1
          show s.totalComparisons ≥ _ + (s.totalComparisons, s.comparisons.length).2
          simp only
          omega
        · rw [hsh, kmpTC_append, wsum_append, htot]
          have : wsum 0 (kmpTC [s]) = 0 + s.comparisons.length + 0 := rfl
          omega

theorem wsum_zero_kmpTC (l : List KMPStep) : wsum 0 (kmpTC l) = kmpCmpSum l := by
  induction l with
  | nil => rfl
  | cons s l ih =>
    show wsum 0 ((s.totalComparisons, s.comparisons.length) :: kmpTC l) = _
    rw [wsum_cons, ih]
    show 0 + s.comparisons.length + _ = (s.comparisons.length :: _).sum
    simp [kmpCmpSum]

theorem kmpTC_take (l : List KMPStep) (k : Nat) : (kmpTC l).take k = kmpTC (l.take k) := by
  simp [kmpTC, List.map_take]

/-- In a KMP trace, each step's `totalComparisons` is at least the sum of
`|comparisons|` over the steps up to and including it (it counts one unit per
loop iteration, including iterations that emit no step). -/
theorem kmp_cumulative_ge (t p : List Nat) (fin : KMPState)
    (hrun : kmpStringMatching t p = some fin) (k : Nat) (hk : k < fin.steps.length) :
    (fin.steps.get ⟨k, hk⟩).totalComparisons ≥ kmpCmpSum (fin.steps.take (k + 1)) := by
  have hge := kmpLoop_stepsGE t p (computeKMPPrefixTable p) (2 * t.length + 1)
    ⟨0, some 0, 0, [], [], 0, []⟩ fin hrun stepsGE_nil (by rfl)
  have hk' : k < (kmpTC fin.steps).length := by simpa [kmpTC] using hk
  have := hge k hk'
  rw [kmpTC_take, wsum_zero_kmpTC] at this
  simpa [kmpTC] using this

/-! ### Occurrence bookkeeping for the KMP invariant -/

theorem occAt_le {t p : List Nat} (hm : 1 ≤ p.length) {s : Nat} (h : occAt t p s) :
    s + p.length ≤ t.length := by
  have hl := congrArg List.length h
  rw [List.length_take, List.length_drop] at hl
  omega

theorem occAt_getElem {t p : List Nat} {s : Nat} (h : occAt t p s) :
    ∀ k, k < p.length → t[s + k]? = p[k]? := by
  intro k hk
  have h1 := congrArg (fun l => l[k]?) h
  simp only at h1
  rw [List.getElem?_take_of_lt hk, List.getElem?_drop] at h1
  exact h1

theorem occListB_succ (t p : List Nat) (c : Nat) :
    occListB t p (c + 1) = occListB t p c ++ if occAt t p c then [c] else [] := by
  unfold occListB
  rw [List.range_succ, List.filter_append]
  by_cases h : occAt t p c <;> simp [h]

theorem occListB_ext (t p : List Nat) :
    ∀ (d c : Nat), (∀ s, c ≤ s → s < c + d → ¬ occAt t p s) →
      occListB t p (c + d) = occListB t p c := by
  intro d
  induction d with
  | zero => intro c _; rfl
  | succ d ih =>
    intro c hno
    rw [show c + (d + 1) = (c + d) + 1 from rfl, occListB_succ]
    rw [if_neg (hno (c + d) (by omega) (by omega))]
    rw [List.append_nil]
    exact ih c fun s h1 h2 => hno s h1 (by omega)

theorem occListB_full (t p : List Nat) (hm : 1 ≤ p.length) {c : Nat}
    (hc : t.length + 1 - p.length ≤ c) : occListB t p c = occList t p := by
  unfold occList
  rw [show c = (t.length + 1 - p.length) + (c - (t.length + 1 - p.length)) from by omega]
  apply occListB_ext
  intro s h1 _ hocc
  have := occAt_le hm hocc
  omega

theorem suffix_ext_text {t p : List Nat} {i jj : Nat} (hi : i < t.length)
    (hjj : jj < p.length) (hsf : p.take jj <:+ t.take i) (hch : t[i]? = p[jj]?) :
    p.take (jj + 1) <:+ t.take (i + 1) := by
  rw [take_succ_concat hjj, take_succ_concat hi, concat_suffix_concat]
  refine ⟨?_, hsf⟩
  rw [List.getElem?_eq_getElem hi, List.getElem?_eq_getElem hjj] at hch
  exact (Option.some.inj hch).symm

theorem suffix_window {t p : List Nat} {i jj : Nat} (hjj : jj ≤ p.length)
    (hji : jj ≤ i) (hi : i ≤ t.length) (hsf : p.take jj <:+ t.take i) :
    (t.take i).drop (i - jj) = p.take jj := by
  have he := List.suffix_iff_eq_drop.mp hsf
  rw [List.length_take, List.length_take] at he
  rw [show min i t.length - min jj p.length = i - jj from by omega] at he
  exact he.symm

theorem occAt_of_suffix {t p : List Nat} {e : Nat} (hsf : p <:+ t.take e)
    (hme : p.length ≤ e) (he : e ≤ t.length) : occAt t p (e - p.length) := by
  unfold occAt
  have hw : (t.take e).drop (e - p.length) = p.take p.length := by
    apply suffix_window (Nat.le_refl _) hme he
    rw [List.take_length]
    exact hsf
  rw [List.take_length] at hw
  rw [List.drop_take] at hw
  rw [show e - (e - p.length) = p.length from by omega] at hw
  exact hw

theorem occ_border_bound {t p : List Nat} {e q s : Nat} (hq : q ≤ p.length)
    (he : e ≤ t.length) (hqe : q ≤ e) (hsf : p.take q <:+ t.take e)
    (hs1 : e - q < s) (hs2 : s < e) (hocc : occAt t p s) :
    IsBorder p q (e - s) := by
  have hLq : e - s < q := by omega
  refine ⟨hLq, ?_⟩
  have ha : p.take (e - s) = (t.drop s).take (e - s) := by
    have h1 := congrArg (List.take (e - s)) hocc
    simp only [List.take_take] at h1
    rw [show min (e - s) p.length = e - s from by omega] at h1
    exact h1.symm
  have hb : (t.drop s).take (e - s) = (t.take e).drop s := by
    rw [List.drop_take]
  have hc : (t.take e).drop s = ((t.take e).drop (e - q)).drop (s - (e - q)) := by
    rw [List.drop_drop]
    rw [show e - q + (s - (e - q)) = s from by omega]
  have hd : (t.take e).drop (e - q) = p.take q :=
    suffix_window hq hqe he hsf
  rw [ha, hb, hc, hd]
  exact List.drop_suffix _ _

/-! ### The KMP search-loop invariant -/

/-- Loop-head invariant of the KMP search loop (non-empty pattern): the
cursor pair is a genuine partial match, and the matches found so far are
exactly the occurrences starting before the current alignment. -/
def KMPInv (t p : List Nat) (st : KMPState) : Prop :=
  ∃ jj, st.j = some jj ∧ jj < p.length ∧ jj ≤ st.i ∧ st.i ≤ t.length ∧
    p.take jj <:+ t.take st.i ∧
    st.foundMatches = occListB t p (st.i - jj)

theorem kmpStep_preserves (t p lps : List Nat) (hm : 1 ≤ p.length)
    (hlps : ∀ k, k < p.length → lps[k]? = some (failF p (k + 1)))
    (st : KMPState) (hi : st.i < t.length) (hinv : KMPInv t p st) :
    ∃ jj jj', st.j = some jj ∧ (kmpStep t p lps st).j = some jj' ∧
      KMPInv t p (kmpStep t p lps st) ∧
      2 * (t.length - (kmpStep t p lps st).i) + jj' < 2 * (t.length - st.i) + jj := by
  obtain ⟨jj, hj, hjm, hji, hin, hsf, hfm⟩ := hinv
  have hpj : optIdx p st.j = some (p[jj]) := by
    rw [hj]
    show p[jj]? = _
    exact List.getElem?_eq_getElem hjm
  have hti : t[st.i]? = some (t[st.i]) := List.getElem?_eq_getElem hi
  have hkcm : kcm t p st = (t[st.i] == p[jj]) := by
    unfold kcm
    rw [hti, hpj]
    rfl
  by_cases hc : t[st.i] = p[jj]
  · -- the compared characters are equal: both cursors advance
    have hkcm1 : kcm t p st = true := by rw [hkcm]; simp [hc]
    have hki : ki t p st = st.i + 1 := by unfold ki; rw [hkcm1]; rfl
    have hkj : kj t p st = some (jj + 1) := by
      unfold kj
      rw [hkcm1, hj]
      rfl
    have hch : t[st.i]? = p[jj]? := by
      rw [hti, List.getElem?_eq_getElem hjm, hc]
    have hsf2 : p.take (jj + 1) <:+ t.take (st.i + 1) := suffix_ext_text hi hjm hsf hch
    by_cases hjm1 : jj + 1 = p.length
    · -- full match found and reported
      have hb1 : (kj t p st == some p.length) = true := by rw [hkj, hjm1]; simp
      rw [kmpStep_eq_match t p lps st hb1]
      have hfull : p <:+ t.take (st.i + 1) := by
        have h2 := hsf2
        rw [hjm1, List.take_length] at h2
        exact h2
      have hlj : lpsAt lps (kj t p st) = some (failF p (jj + 1)) := by
        rw [hkj]
        show lps[jj]? = _
        exact hlps jj hjm
      have hposOcc : occAt t p (st.i + 1 - p.length) :=
        occAt_of_suffix hfull (by omega) (by omega)
      have hflt : failF p (jj + 1) < jj + 1 := failF_lt p (jj + 1) (by omega)
      refine ⟨jj, failF p (jj + 1), hj, hlj, ⟨failF p (jj + 1), hlj, ?_, ?_, ?_, ?_, ?_⟩, ?_⟩
      · omega
      · show failF p (jj + 1) ≤ ki t p st
        rw [hki]
        omega
      · show ki t p st ≤ t.length
        rw [hki]
        omega
      · show p.take (failF p (jj + 1)) <:+ t.take (ki t p st)
        rw [hki]
        have hbord := (failF_isBorder p (jj + 1) (by omega)).2
        rw [show p.take (jj + 1) = p from by rw [hjm1, List.take_length]] at hbord
        exact hbord.trans hfull
      · show _ ++ [ki t p st - p.length] = occListB t p (ki t p st - failF p (jj + 1))
        rw [hki, hfm]
        have e1 : st.i - jj = st.i + 1 - p.length := by omega
        rw [e1]
        have e2 : st.i + 1 - failF p (jj + 1) =
            ((st.i + 1 - p.length) + 1) +
              ((st.i + 1 - failF p (jj + 1)) - ((st.i + 1 - p.length) + 1)) := by
          omega
        rw [e2, occListB_ext t p _ _ ?_, occListB_succ, if_pos hposOcc]
        intro s hs1 hs2 hocc
        have hbord : IsBorder p p.length (st.i + 1 - s) := by
          apply occ_border_bound (Nat.le_refl _) (by omega) (by omega)
            (by rw [List.take_length]; exact hfull) (by omega) (by omega) hocc
        have := le_failF hbord
        rw [← hjm1] at this
        omega
      · show 2 * (t.length - ki t p st) + failF p (jj + 1) < _
        rw [hki]
        omega
    · -- partial match: the mismatch test re-examines the advanced cursors
      have hjj1m : jj + 1 < p.length := by omega
      have hb1 : (kj t p st == some p.length) = false := by
        rw [hkj]
        simp
        omega
      by_cases hcondb : kcond t p st = true
      · -- the next characters differ: prefix-shift step in the same iteration
        have hne0 : jsNeZero (kj t p st) = true := by rw [hkj]; rfl
        rw [kmpStep_eq_shift t p lps st hb1 hcondb hne0]
        have hlj : lpsAt lps (kj t p st) = some (failF p (jj + 1)) := by
          rw [hkj]
          show lps[jj]? = _
          exact hlps jj hjm
        have hcond2 : st.i + 1 < t.length ∧
            jsEqU t[st.i + 1]? (optIdx p (some (jj + 1))) = false := by
          unfold kcond at hcondb
          rw [hki, hkj] at hcondb
          simp only [Bool.and_eq_true, decide_eq_true_eq, Bool.not_eq_true'] at hcondb
          exact hcondb
        have hmm2 : t[st.i + 1]? ≠ p[jj + 1]? := by
          intro hcontra
          have h2 := hcond2.2
          rw [show optIdx p (some (jj + 1)) = p[jj + 1]? from rfl, ← hcontra,
            List.getElem?_eq_getElem hcond2.1] at h2
          simp [jsEqU] at h2
        have hflt : failF p (jj + 1) < jj + 1 := failF_lt p (jj + 1) (by omega)
        refine ⟨jj, failF p (jj + 1), hj, hlj, ⟨failF p (jj + 1), hlj, ?_, ?_, ?_, ?_, ?_⟩, ?_⟩
        · omega
        · show failF p (jj + 1) ≤ ki t p st
          rw [hki]
          omega
        · show ki t p st ≤ t.length
          rw [hki]
          omega
        · show p.take (failF p (jj + 1)) <:+ t.take (ki t p st)
          rw [hki]
          exact (failF_isBorder p (jj + 1) (by omega)).2.trans hsf2
        · show _ = occListB t p (ki t p st - failF p (jj + 1))
          rw [hki, hfm]
          have e1 : st.i - jj = st.i + 1 - (jj + 1) := by omega
          rw [e1]
          have e2 : st.i + 1 - failF p (jj + 1) =
              (st.i + 1 - (jj + 1)) +
                ((st.i + 1 - failF p (jj + 1)) - (st.i + 1 - (jj + 1))) := by
            omega
          rw [e2, occListB_ext t p _ _ ?_]
          intro s hs1 hs2 hocc
          rcases Nat.eq_or_lt_of_le hs1 with hse | hsgt
          · -- the occurrence would force the mismatching characters equal
            apply hmm2
            have h3 := occAt_getElem hocc (jj + 1) hjj1m
            rw [show s + (jj + 1) = st.i + 1 from by omega] at h3
            exact h3
          · have hbord : IsBorder p (jj + 1) (st.i + 1 - s) :=
              occ_border_bound (by omega) (by omega) (by omega) hsf2
                (by omega) (by omega) hocc
            have := le_failF hbord
            omega
        · show 2 * (t.length - ki t p st) + failF p (jj + 1) < _
          rw [hki]
          omega
      · -- silent iteration: the advanced cursors still match (or text ended)
        rw [kmpStep_eq_silent t p lps st hb1 (Bool.eq_false_iff.mpr hcondb)]
        refine ⟨jj, jj + 1, hj, hkj, ⟨jj + 1, hkj, hjj1m, ?_, ?_, ?_, ?_⟩, ?_⟩
        · show jj + 1 ≤ ki t p st
          rw [hki]
          omega
        · show ki t p st ≤ t.length
          rw [hki]
          omega
        · show p.take (jj + 1) <:+ t.take (ki t p st)
          rw [hki]
          exact hsf2
        · show _ = occListB t p (ki t p st - (jj + 1))
          rw [hki, hfm]
          congr 1
          omega
        · show 2 * (t.length - ki t p st) + (jj + 1) < _
          rw [hki]
          omega
  · -- the compared characters differ: cursors unchanged, mismatch branch
    have hkcm1 : kcm t p st = false := by rw [hkcm]; simp [hc]
    have hki : ki t p st = st.i := by unfold ki; rw [hkcm1]; rfl
    have hkj : kj t p st = some jj := by
      unfold kj
      rw [hkcm1]
      exact hj
    have hraw : jsEqU t[st.i]? (optIdx p (some jj)) = false := by
      rw [show (some jj : Option Nat) = st.j from hj.symm]
      exact hkcm1
    have hb1 : (kj t p st == some p.length) = false := by
      rw [hkj]
      simp
      omega
    have hcondb : kcond t p st = true := by
      unfold kcond
      rw [hki, hkj, hraw]
      simp [hi]
    have hchne : t[st.i]? ≠ p[jj]? := by
      rw [hti, List.getElem?_eq_getElem hjm]
      intro hcontra
      exact hc (Option.some.inj hcontra)
    by_cases hjz : jj = 0
    · -- mismatch at the start of the pattern: advance the text cursor only
      subst hjz
      have hne0 : jsNeZero (kj t p st) = false := by rw [hkj]; rfl
      rw [kmpStep_eq_start t p lps st hb1 hcondb hne0]
      refine ⟨0, 0, hj, hkj, ⟨0, hkj, hm, ?_, ?_, ?_, ?_⟩, ?_⟩
      · omega
      · show ki t p st + 1 ≤ t.length
        rw [hki]
        omega
      · simp
      · show _ = occListB t p (ki t p st + 1 - 0)
        rw [hki, hfm]
        have hnoc : ¬ occAt t p st.i := by
          intro hocc
          apply hchne
          have := occAt_getElem hocc 0 hm
          rw [Nat.add_zero] at this
          exact this
        rw [show st.i + 1 - 0 = st.i + 1 from by omega, occListB_succ, if_neg hnoc,
          List.append_nil]
        rfl
      · show 2 * (t.length - (ki t p st + 1)) + 0 < _
        rw [hki]
        omega
    · -- prefix shift on the unchanged cursors
      obtain ⟨jjp, rfl⟩ : ∃ jjp, jj = jjp + 1 := ⟨jj - 1, by omega⟩
      have hne0 : jsNeZero (kj t p st) = true := by rw [hkj]; rfl
      rw [kmpStep_eq_shift t p lps st hb1 hcondb hne0]
      have hlj : lpsAt lps (kj t p st) = some (failF p (jjp + 1)) := by
        rw [hkj]
        show lps[jjp]? = _
        exact hlps jjp (by omega)
      have hflt : failF p (jjp + 1) < jjp + 1 := failF_lt p (jjp + 1) (by omega)
      refine ⟨jjp + 1, failF p (jjp + 1), hj, hlj,
        ⟨failF p (jjp + 1), hlj, by omega, ?_, ?_, ?_, ?_⟩, ?_⟩
      · show failF p (jjp + 1) ≤ ki t p st
        rw [hki]
        omega
      · show ki t p st ≤ t.length
        rw [hki]
        omega
      · show p.take (failF p (jjp + 1)) <:+ t.take (ki t p st)
        rw [hki]
        exact (failF_isBorder p (jjp + 1) (by omega)).2.trans hsf
      · show _ = occListB t p (ki t p st - failF p (jjp + 1))
        rw [hki, hfm]
        have e2 : st.i - failF p (jjp + 1) =
            (st.i - (jjp + 1)) + ((st.i - failF p (jjp + 1)) - (st.i - (jjp + 1))) := by
          omega
        rw [e2, occListB_ext t p _ _ ?_]
        intro s hs1 hs2 hocc
        rcases Nat.eq_or_lt_of_le hs1 with hse | hsgt
        · apply hchne
          have h3 := occAt_getElem hocc (jjp + 1) hjm
          rw [show s + (jjp + 1) = st.i from by omega] at h3
          exact h3
        · have hbord : IsBorder p (jjp + 1) (st.i - s) :=
            occ_border_bound (by omega) (by omega) (by omega) hsf
              (by omega) (by omega) hocc
          have := le_failF hbord
          omega
      · show 2 * (t.length - ki t p st) + failF p (jjp + 1) < _
        rw [hki]
        omega

theorem kmpLoop_inv (t p lps : List Nat) (hm : 1 ≤ p.length)
    (hlps : ∀ k, k < p.length → lps[k]? = some (failF p (k + 1))) :
    ∀ (fuel : Nat) (st : KMPState), KMPInv t p st →
      (∀ jj, st.j = some jj → 2 * (t.length - st.i) + jj < fuel) →
      ∃ fin, kmpLoop t p lps fuel st = some fin ∧ fin.i = t.length ∧ KMPInv t p fin := by
  intro fuel
  induction fuel with
  | zero =>
    intro st hinv hfuel
    obtain ⟨jj, hj, _⟩ := hinv
    have := hfuel jj hj
    omega
  | succ fuel ih =>
    intro st hinv hfuel
    by_cases hexit : t.length ≤ st.i
    · refine ⟨st, ?_, ?_, hinv⟩
      · simp only [kmpLoop]
        rw [if_pos hexit]
      · obtain ⟨jj, hj, hjm, hji, hin, _⟩ := hinv
        omega
    · have hi : st.i < t.length := by omega
      obtain ⟨jj, jj', hj, hj', hinv', hmeas⟩ := kmpStep_preserves t p lps hm hlps st hi hinv
      have hcond : ∀ jj2, (kmpStep t p lps st).j = some jj2 →
          2 * (t.length - (kmpStep t p lps st).i) + jj2 < fuel := by
        intro jj2 hj2
        have h12 : jj' = jj2 := Option.some.inj (hj'.symm.trans hj2)
        have := hfuel jj hj
        omega
      obtain ⟨fin, hrun, hfin⟩ := ih (kmpStep t p lps st) hinv' hcond
      refine ⟨fin, ?_, hfin⟩
      simp only [kmpLoop]
      rw [if_neg hexit]
      exact hrun

/-- For every non-empty pattern the KMP search loop terminates within its
fuel and reports exactly the occurrence offsets, in ascending order. -/
theorem kmpStringMatching_spec (t p : List Nat) (hm : 1 ≤ p.length) :
    ∃ fin, kmpStringMatching t p = some fin ∧ fin.foundMatches = occList t p := by
  obtain ⟨hlen, hlps⟩ := computeKMPPrefixTable_spec p hm
  have hinv0 : KMPInv t p ⟨0, some 0, 0, [], [], 0, []⟩ := by
    refine ⟨0, rfl, hm, Nat.zero_le _, Nat.zero_le _, by simp, rfl⟩
  have hfuel0 : ∀ jj, (⟨0, some 0, 0, [], [], 0, []⟩ : KMPState).j = some jj →
      2 * (t.length - 0) + jj < 2 * t.length + 1 := by
    intro jj hj
    have : jj = 0 := (Option.some.inj hj).symm
    omega
  obtain ⟨fin, hrun, hfin_i, jj, hj, hjm, hji, hin, hsfx, hfm⟩ :=
    kmpLoop_inv t p (computeKMPPrefixTable p) hm hlps (2 * t.length + 1)
      ⟨0, some 0, 0, [], [], 0, []⟩ hinv0 hfuel0
  refine ⟨fin, hrun, ?_⟩
  rw [hfm, hfin_i]
  apply occListB_full t p hm
  rw [hfin_i] at hji
  omega

/-! ### Non-termination of the KMP loop on an empty pattern -/

theorem kmpLoop_stuck (t lps : List Nat) (ht : 0 < t.length) :
    ∀ (fuel : Nat) (st : KMPState), st.i = 0 → st.j = none →
      kmpLoop t [] lps fuel st = none := by
  intro fuel
  induction fuel with
  | zero =>
    intro st hi hj
    simp only [kmpLoop]
    rw [if_neg (by omega)]
  | succ fuel ih =>
    intro st hi hj
    have hkcm : kcm t [] st = false := by
      unfold kcm
      rw [hj, List.getElem?_eq_getElem (show st.i < t.length from by omega)]
      rfl
    have hki : ki t [] st = st.i := by unfold ki; rw [hkcm]; rfl
    have hkj : kj t [] st = none := by unfold kj; rw [hkcm]; exact hj
    have hb1 : (kj t [] st == some (List.length ([] : List Nat))) = false := by
      rw [hkj]
      rfl
    have hcondb : kcond t [] st = true := by
      unfold kcond
      rw [hki, hkj]
      have h2 : jsEqU t[st.i]? (optIdx [] none) = false := by
        rw [List.getElem?_eq_getElem (show st.i < t.length from by omega)]
        rfl
      rw [h2]
      simp
      omega
    have hne0 : jsNeZero (kj t [] st) = true := by rw [hkj]; rfl
    simp only [kmpLoop]
    rw [if_neg (by omega)]
    rw [kmpStep_eq_shift t [] lps st hb1 hcondb hne0]
    apply ih
    · show ki t [] st = 0
      rw [hki, hi]
    · show lpsAt lps (kj t [] st) = none
      rw [hkj]
      rfl

/-! ### Remaining support lemmas -/

theorem occList_sorted (t p : List Nat) : List.Sorted (· < ·) (occList t p) :=
  List.Pairwise.filter _ (List.pairwise_lt_range _)

theorem occList_nil_of_long {t p : List Nat} (h : t.length < p.length) :
    occList t p = [] := by
  unfold occList occListB
  rw [show t.length + 1 - p.length = 0 from by omega]
  rfl

theorem kmpStringMatching_map_foundMatches (t p : List Nat) (hm : 1 ≤ p.length) :
    (kmpStringMatching t p).map (·.foundMatches) = some (occList t p) := by
  obtain ⟨fin, hrun, heq⟩ := kmpStringMatching_spec t p hm
  rw [hrun]
  simp [heq]

theorem naiveLoop_lastTotal (t p : List Nat) :
    ∀ (cnt i : Nat) (st : NaiveResult),
      (st.steps = [] ∧ st.totalComparisons = 0) ∨
        st.steps.getLast?.map (·.totalComparisons) = some st.totalComparisons →
      ((naiveLoop t p i cnt st).steps = [] ∧ (naiveLoop t p i cnt st).totalComparisons = 0) ∨
        (naiveLoop t p i cnt st).steps.getLast?.map (·.totalComparisons) =
          some (naiveLoop t p i cnt st).totalComparisons := by
  intro cnt
  induction cnt with
  | zero => intro i st h; exact h
  | succ c ih =>
    intro i st _
    show ((naiveLoop t p (i + 1) c (naiveWindow t p i st)).steps = [] ∧ _) ∨ _
    apply ih
    right
    rw [naiveWindow_steps, naiveWindow_total, List.getLast?_concat]
    rfl

theorem rkLoop_lastTotal (t p : List Nat) (ph : Option Nat) :
    ∀ (cnt i : Nat) (st : RKResult),
      (st.steps = [] ∧ st.totalComparisons = 0) ∨
        st.steps.getLast?.map (·.totalComparisons) = some st.totalComparisons →
      ((rkLoop t p ph i cnt st).steps = [] ∧ (rkLoop t p ph i cnt st).totalComparisons = 0) ∨
        (rkLoop t p ph i cnt st).steps.getLast?.map (·.totalComparisons) =
          some (rkLoop t p ph i cnt st).totalComparisons := by
  intro cnt
  induction cnt with
  | zero => intro i st h; exact h
  | succ c ih =>
    intro i st _
    show ((rkLoop t p ph (i + 1) c (rkWindow t p ph i st)).steps = [] ∧ _) ∨ _
    apply ih
    right
    rw [rkWindow_steps, rkWindow_total, List.getLast?_concat]
    rfl

theorem naive_lastTotal (t p : List Nat) :
    (naiveStringMatching t p).steps = [] ∨
      (naiveStringMatching t p).steps.getLast?.map (·.totalComparisons) =
        some (naiveStringMatching t p).totalComparisons := by
  rcases naiveLoop_lastTotal t p (t.length + 1 - p.length) 0 ⟨[], [], 0, []⟩
    (Or.inl ⟨rfl, rfl⟩) with h | h
  · exact Or.inl h.1
  · exact Or.inr h

theorem rk_lastTotal (t p : List Nat) :
    (rabinKarpStringMatching t p).steps = [] ∨
      (rabinKarpStringMatching t p).steps.getLast?.map (·.totalComparisons) =
        some (rabinKarpStringMatching t p).totalComparisons := by
  rcases rkLoop_lastTotal t p (calculateHash p 0 p.length) (t.length + 1 - p.length) 0
    ⟨[], [], 0, [], calculateHash t 0 p.length⟩ (Or.inl ⟨rfl, rfl⟩) with h | h
  · exact Or.inl h.1
  · exact Or.inr h

/-! ## The claims -/

/-- Claim C1: for every text and non-empty pattern no longer than the text,
the `matchPositions` (`foundMatches`) produced by the Naive, KMP and
Rabin-Karp trace generators are the same list — the ascending list of all
occurrence offsets — hence identical as sets, and each is strictly
ascending. -/
theorem claim_C1 (t p : List Nat) (hm : 1 ≤ p.length) (hmn : p.length ≤ t.length) :
    (naiveStringMatching t p).foundMatches = occList t p ∧
    (kmpStringMatching t p).map (·.foundMatches) = some (occList t p) ∧
    (rabinKarpStringMatching t p).foundMatches = occList t p ∧
    List.Sorted (· < ·) (occList t p) :=
  ⟨naiveStringMatching_foundMatches t p,
    kmpStringMatching_map_foundMatches t p hm,
    rabinKarpStringMatching_foundMatches t p hm hmn,
    occList_sorted t p⟩

theorem claim_C1_witness :
    (1 ≤ ([65] : List Nat).length ∧ ([65] : List Nat).length ≤ ([65, 66, 65] : List Nat).length) ∧
    ((naiveStringMatching [65, 66, 65] [65]).foundMatches = occList [65, 66, 65] [65] ∧
      (kmpStringMatching [65, 66, 65] [65]).map (·.foundMatches) =
        some (occList [65, 66, 65] [65]) ∧
      (rabinKarpStringMatching [65, 66, 65] [65]).foundMatches = occList [65, 66, 65] [65] ∧
      List.Sorted (· < ·) (occList [65, 66, 65] [65])) :=
  ⟨⟨by decide, by decide⟩, claim_C1 [65, 66, 65] [65] (by decide) (by decide)⟩

/-- Claim C2 as stated is false for KMP: on text "AB", pattern "AB" the trace
has a single step whose `totalComparisons` is 2 while the sum of
`|comparisons|` over the steps up to and including it is 1 (the first,
silent loop iteration is counted but recorded in no step). -/
theorem claim_C2_counterexample :
    (kmpStringMatching [65, 66] [65, 66]).map
        (fun r => r.steps.map fun s => (s.totalComparisons, s.comparisons.length)) =
      some [(2, 1)] ∧ (2 : Nat) ≠ 1 :=
  ⟨rfl, by decide⟩

/-- Claim C2 amended: the cumulative invariant holds as stated for Naive
(each step's `totalComparisons` is the running sum of `|comparisons|`) and
for Rabin-Karp (with one extra hash-comparison unit per window processed);
for KMP each step's `totalComparisons` is only an upper bound for the
running sum, because mid-match loop iterations are counted but emit no
step. -/
theorem claim_C2_amended :
    (∀ (t p : List Nat) (k : Nat) (hk : k < (naiveStringMatching t p).steps.length),
      ((naiveStringMatching t p).steps.get ⟨k, hk⟩).totalComparisons =
        naiveCmpSum ((naiveStringMatching t p).steps.take (k + 1))) ∧
    (∀ (t p : List Nat) (k : Nat) (hk : k < (rabinKarpStringMatching t p).steps.length),
      ((rabinKarpStringMatching t p).steps.get ⟨k, hk⟩).totalComparisons =
        (k + 1) + rkCmpSum ((rabinKarpStringMatching t p).steps.take (k + 1))) ∧
    (∀ (t p : List Nat) (fin : KMPState), kmpStringMatching t p = some fin →
      ∀ (k : Nat) (hk : k < fin.steps.length),
        (fin.steps.get ⟨k, hk⟩).totalComparisons ≥ kmpCmpSum (fin.steps.take (k + 1))) :=
  ⟨fun t p k hk => naive_cumulative t p k hk,
    fun t p k hk => rk_cumulative t p k hk,
    fun t p fin hrun k hk => kmp_cumulative_ge t p fin hrun k hk⟩

theorem claim_C2_amended_witness :
    ((naiveStringMatching [65, 66] [65]).steps.get ⟨0, by decide⟩).totalComparisons =
      naiveCmpSum ((naiveStringMatching [65, 66] [65]).steps.take 1) ∧
    ((rabinKarpStringMatching [65, 66] [65]).steps.get ⟨0, by decide⟩).totalComparisons =
      (0 + 1) + rkCmpSum ((rabinKarpStringMatching [65, 66] [65]).steps.take 1) ∧
    (((⟨2, some 0, 1, [⟨some 0, 0, [⟨1, some 1, true⟩], 2, .matchFound 0, none⟩], [0], 2,
        [⟨0, 1, 2⟩]⟩ : KMPState).steps.get ⟨0, by decide⟩).totalComparisons ≥
      kmpCmpSum ((⟨2, some 0, 1, [⟨some 0, 0, [⟨1, some 1, true⟩], 2, .matchFound 0, none⟩],
        [0], 2, [⟨0, 1, 2⟩]⟩ : KMPState).steps.take 1)) :=
  ⟨claim_C2_amended.1 [65, 66] [65] 0 (by decide),
    claim_C2_amended.2.1 [65, 66] [65] 0 (by decide),
    claim_C2_amended.2.2 [65, 66] [65, 66] _ rfl 0 (by decide)⟩

/-- Claim C3 as stated is false for KMP: on text "AA", pattern "AA" the
count-only entry point returns 3 (it also counts the one comparison made
while building the prefix table) while the last trace step records a running
total of 2. -/
theorem claim_C3_counterexample :
    countKMPComparisons [65, 65] [65, 65] = some 3 ∧
    (kmpStringMatching [65, 65] [65, 65]).map
        (fun r => r.steps.getLast?.map (·.totalComparisons)) = some (some 2) ∧
    (3 : Nat) ≠ 2 :=
  ⟨rfl, rfl, by decide⟩

/-- Claim C3 amended: `countComparisons` agrees with the trace's final
running total — and hence with the last step's `totalComparisonsSoFar`
whenever at least one step exists — for Naive and Rabin-Karp; for KMP,
`countKMPComparisons` equals the prefix-table construction comparisons plus
the search loop's final counter (which also counts iterations that emit no
step), and can therefore exceed the last step's recorded total. -/
theorem claim_C3_amended :
    (∀ t p : List Nat,
      countNaiveComparisons t p = (naiveStringMatching t p).totalComparisons ∧
      ((naiveStringMatching t p).steps = [] ∨
        (naiveStringMatching t p).steps.getLast?.map (·.totalComparisons) =
          some (countNaiveComparisons t p))) ∧
    (∀ t p : List Nat,
      countRabinKarpComparisons t p = (rabinKarpStringMatching t p).totalComparisons ∧
      ((rabinKarpStringMatching t p).steps = [] ∨
        (rabinKarpStringMatching t p).steps.getLast?.map (·.totalComparisons) =
          some (countRabinKarpComparisons t p))) ∧
    (∀ t p : List Nat, countKMPComparisons t p =
      (kmpStringMatching t p).map fun r => r.totalComparisons + lpsComparisons p) := by
  refine ⟨fun t p => ⟨countNaive_eq_trace t p, ?_⟩,
    fun t p => ⟨countRK_eq_trace t p, ?_⟩, countKMP_eq_trace⟩
  · rcases naive_lastTotal t p with h | h
    · exact Or.inl h
    · exact Or.inr (by rw [countNaive_eq_trace]; exact h)
  · rcases rk_lastTotal t p with h | h
    · exact Or.inl h
    · exact Or.inr (by rw [countRK_eq_trace]; exact h)

/-- Claim C4: the code violates the claim.  On text "A" with an empty
pattern the KMP search loop never terminates: in the first iteration
`j === pattern.length` holds at `j = 0`, so `j` is set to `lps[-1]`
(`undefined`), after which every iteration takes the prefix-shift branch
with `j` stuck at `undefined` and `i` never advancing.  The fueled embedding
returns `none` for every fuel. -/
theorem claim_C4_kmp_diverges :
    (∀ fuel : Nat, kmpLoop [65] [] (computeKMPPrefixTable []) fuel
      ⟨0, some 0, 0, [], [], 0, []⟩ = none) ∧
    kmpStringMatching [65] [] = none := by
  have hall : ∀ fuel : Nat, kmpLoop [65] [] (computeKMPPrefixTable []) fuel
      ⟨0, some 0, 0, [], [], 0, []⟩ = none := by
    intro fuel
    cases fuel with
    | zero => rfl
    | succ fuel =>
      have hstep : kmpLoop [65] [] (computeKMPPrefixTable []) (fuel + 1)
          ⟨0, some 0, 0, [], [], 0, []⟩ =
          kmpLoop [65] [] (computeKMPPrefixTable []) fuel
            (kmpStep [65] [] (computeKMPPrefixTable []) ⟨0, some 0, 0, [], [], 0, []⟩) := by
        simp only [kmpLoop]
        rw [if_neg (by decide)]
      rw [hstep]
      exact kmpLoop_stuck [65] (computeKMPPrefixTable []) (by decide) fuel _ rfl rfl
  exact ⟨hall, hall 3⟩

/-- Claim C5: for `1 ≤ |pattern| ≤ |text|` and every window offset
`i ≤ |text| - |pattern|`, the window hash obtained by iterating the roll
update from `hash(text, 0, |pattern|)` equals `hash(text, i, i + |pattern|)`
computed directly, with base 256 and modulus 101 in exact integer
arithmetic. -/
theorem claim_C5 (t p : List Nat) (hm : 1 ≤ p.length) (hmn : p.length ≤ t.length)
    (i : Nat) (hi : i ≤ t.length - p.length) :
    windowHash t p.length i = calculateHash t i (i + p.length) :=
  windowHash_eq_calculateHash t p hm hmn i hi

theorem claim_C5_witness :
    (1 ≤ ([65] : List Nat).length ∧ ([65] : List Nat).length ≤ ([65, 66] : List Nat).length ∧
      1 ≤ ([65, 66] : List Nat).length - ([65] : List Nat).length) ∧
    windowHash [65, 66] ([65] : List Nat).length 1 =
      calculateHash [65, 66] 1 (1 + ([65] : List Nat).length) :=
  ⟨⟨by decide, by decide, by decide⟩,
    claim_C5 [65, 66] [65] (by decide) (by decide) 1 (by decide)⟩

/-- Claim C6 as stated is false for KMP: on text "AB", pattern "AXC"
(longer than the text) the KMP trace contains 2 steps, not zero. -/
theorem claim_C6_counterexample :
    (kmpStringMatching [65, 66] [65, 88, 67]).map (fun r => r.steps.length) = some 2 ∧
    (2 : Nat) ≠ 0 :=
  ⟨rfl, by decide⟩

/-- Claim C6 amended: when the pattern is longer than the text, Naive and
Rabin-Karp produce zero steps and all three produce empty `matchPositions`,
as a valid empty trace rather than an error; KMP, however, can still emit
mismatch steps.  On the spec's own example (text "AB", pattern "ABC") all
three do produce zero steps. -/
theorem claim_C6_amended (t p : List Nat) (h : t.length < p.length) :
    (naiveStringMatching t p).steps = [] ∧
    (naiveStringMatching t p).foundMatches = [] ∧
    (rabinKarpStringMatching t p).steps = [] ∧
    (rabinKarpStringMatching t p).foundMatches = [] ∧
    (kmpStringMatching t p).map (·.foundMatches) = some [] ∧
    (kmpStringMatching [65, 66] [65, 66, 67]).map (fun r => r.steps.length) = some 0 ∧
    (naiveStringMatching [65, 66] [65, 66, 67]).steps = [] ∧
    (rabinKarpStringMatching [65, 66] [65, 66, 67]).steps = [] := by
  have hm : 1 ≤ p.length := by omega
  obtain ⟨h1, h2⟩ := naive_longPattern_empty t p h
  obtain ⟨_, h3, h4, _⟩ := rk_longPattern_oob t p h
  refine ⟨h1, h2, h3, h4, ?_, rfl, rfl, rfl⟩
  rw [kmpStringMatching_map_foundMatches t p hm, occList_nil_of_long h]

theorem claim_C6_amended_witness :
    ([65, 66] : List Nat).length < ([65, 88, 67] : List Nat).length ∧
    ((naiveStringMatching [65, 66] [65, 88, 67]).steps = [] ∧
      (naiveStringMatching [65, 66] [65, 88, 67]).foundMatches = [] ∧
      (rabinKarpStringMatching [65, 66] [65, 88, 67]).steps = [] ∧
      (rabinKarpStringMatching [65, 66] [65, 88, 67]).foundMatches = [] ∧
      (kmpStringMatching [65, 66] [65, 88, 67]).map (·.foundMatches) = some [] ∧
      (kmpStringMatching [65, 66] [65, 66, 67]).map (fun r => r.steps.length) = some 0 ∧
      (naiveStringMatching [65, 66] [65, 66, 67]).steps = [] ∧
      (rabinKarpStringMatching [65, 66] [65, 66, 67]).steps = []) :=
  ⟨by decide, claim_C6_amended [65, 66] [65, 88, 67] (by decide)⟩

/-- Claim C7 as stated is false: `generateSteps` has no error channel at
all.  An unrecognized algorithm tag ("bogus") yields an empty steps array
literally equal to the valid empty trace produced for a pattern longer than
the text, and an empty pattern is not rejected — the naive variant happily
produces `|text| + 1` steps. -/
theorem claim_C7_counterexample :
    generateSteps [98, 111, 103, 117, 115] [65, 66] [65] = some [] ∧
    generateSteps tagNaive [65, 66] [65, 66, 67] = some [] ∧
    (generateSteps tagNaive [65] []).map (·.length) = some 2 :=
  ⟨rfl, rfl, rfl⟩

/-- Claim C7 amended: `generateSteps` performs no input validation and
signals no errors; every unrecognized algorithm tag silently produces the
initial empty steps array (indistinguishable from a valid empty trace), and
empty inputs are passed straight to the selected algorithm. -/
theorem claim_C7_amended (alg t p : List Nat) (h1 : alg ≠ tagNaive) (h2 : alg ≠ tagKMP)
    (h3 : alg ≠ tagRabinKarp) : generateSteps alg t p = some [] := by
  unfold generateSteps
  rw [if_neg h1, if_neg h2, if_neg h3]

theorem claim_C7_amended_witness :
    ([120] : List Nat) ≠ tagNaive ∧ generateSteps [120] [65] [66] = some [] :=
  ⟨by decide, claim_C7_amended [120] [65] [66] (by decide) (by decide) (by decide)⟩

/-- Claim C8: on text "AB", pattern "AC", the first KMP step is tagged as a
prefix-shift mismatch while its single comparison record is the *matching*
comparison `text[0] === pattern[0]`; the unequal pair `text[1] ≠ pattern[1]`
that triggered the mismatch tag is recorded in no comparison record of that
step and not counted in its `totalComparisons` (which is 1). -/
theorem claim_C8 :
    (kmpStringMatching [65, 66] [65, 67]).map
        (fun r => r.steps.map fun s =>
          (s.description, s.comparisons.map fun c => (c.textIndex, c.patternIndex, c.matched),
            s.totalComparisons)) =
      some ([(.mismatchShift, [(0, some 0, true)], 1),
        (.mismatchAtStart, [(1, some 0, false)], 2)] :
          List (KMPDesc × List (Nat × Option Nat × Bool) × Nat)) ∧
    ([65, 66] : List Nat)[1]? ≠ ([65, 67] : List Nat)[1]? :=
  ⟨rfl, by decide⟩

/-- Claim C9: `rabinKarpStringMatching` computes the first window hash
`calculateHash(text, 0, pattern.length)` unconditionally; whenever the
pattern is longer than the text this read runs past the end of the text and
the poisoned (out-of-bounds) branch of the hash embedding is reached, even
though the window loop then runs zero times and the trace is empty. -/
theorem claim_C9 (t p : List Nat) (h : t.length < p.length) :
    calculateHash t 0 p.length = none ∧
    (rabinKarpStringMatching t p).textHash = none ∧
    (rabinKarpStringMatching t p).steps = [] := by
  obtain ⟨h1, h2, _, h4⟩ := rk_longPattern_oob t p h
  exact ⟨h1, h4, h2⟩

theorem claim_C9_witness :
    ([65, 66] : List Nat).length < ([65, 66, 67] : List Nat).length ∧
    (calculateHash [65, 66] 0 ([65, 66, 67] : List Nat).length = none ∧
      (rabinKarpStringMatching [65, 66] [65, 66, 67]).textHash = none ∧
      (rabinKarpStringMatching [65, 66] [65, 66, 67]).steps = []) :=
  ⟨by decide, claim_C9 [65, 66] [65, 66, 67] (by decide)⟩

/-- Claim C10: for every text, the naive variant on an empty pattern raises
no error and produces exactly `|text| + 1` steps, each a match step with an
empty comparison list and a zero running total, and
`matchPositions = [0, 1, ..., |text|]` — including the offset `|text|`,
which lies outside the text. -/
theorem claim_C10 (t : List Nat) :
    (naiveStringMatching t []).steps.length = t.length + 1 ∧
    (∀ s ∈ (naiveStringMatching t []).steps,
      s.comparisons = [] ∧ s.totalComparisons = 0 ∧
        s.description = .matchFound s.textIndex) ∧
    (naiveStringMatching t []).foundMatches = List.range (t.length + 1) ∧
    t.length ∈ (naiveStringMatching t []).foundMatches :=
  naive_empty_pattern_trace t

theorem claim_C10_witness :
    (naiveStringMatching [65, 66] []).steps.length = 3 ∧
    (naiveStringMatching [65, 66] []).foundMatches = List.range 3 ∧
    2 ∈ (naiveStringMatching [65, 66] []).foundMatches :=
  ⟨(claim_C10 [65, 66]).1, (claim_C10 [65, 66]).2.2.1, (claim_C10 [65, 66]).2.2.2⟩

end StringMatch
